import Mathlib

/-!
Shallow embedding of the ZDG layered key-and-lock map generator
(`src/pos.rs`, `src/node.rs`, `src/node_map.rs`).

Modelling conventions:
* `isize` becomes `Int`, `usize` becomes `Nat`.  The `(row * width + col) as
  usize` bit-cast in `NodeMap::get_node` is modelled by returning `none` for a
  negative linear index: the bit-cast of a negative `isize` yields a value
  `≥ 2^63`, which always exceeds the vector length for any grid that fits in
  memory, so `Vec::get` returns `None` there.
* The process-wide `ThreadRng` is modelled as an infinite stream of naturals
  together with a cursor.  `gen_range(lo, hi)` consumes one draw `n` and
  returns `lo + n % (hi - lo)`; `Iterator::choose` consumes one draw and picks
  index `n % len`; `choose_multiple(rng, k)` repeatedly draws an index and
  removes the chosen element.  Every output the `rand` crate can produce is
  produced by this model for a suitable stream, which is what the universally
  quantified theorems below range over.
* Rust panics (`Option::unwrap` on `None`, out-of-range `Vec` indexing in
  `set_node`, `gen_range` on an empty range) are modelled explicitly where
  they are reachable: `NodeMap.generate` returns `GenResult.panicked` on the
  reachable `unwrap` of the root snapshot's missing parent and on the
  `unwrap`s inside `generate_final_state`.  The remaining `unwrap`s
  (`get_node` on placed positions, `set_node` index checks) sit on paths where
  the generator has already bounds-checked the position; they are modelled by
  a harmless total branch and the bounds discipline is proved as part of the
  state invariant below.
* Rust's `HashSet` collections dedup by derived (structural) hash and the
  type's `Eq`.  `Line`'s custom `PartialEq` is endpoint-order-insensitive
  while its derived `Hash` is order-sensitive, so reversed duplicates land in
  different buckets and both survive; structural duplicates are merged.  The
  `HashSet` collects are therefore modelled as structural-equality `dedup`.
  Iteration order of a `HashSet` is arbitrary in Rust; the model fixes one
  order, which only steers which element a random index denotes.
* `u8` layer arithmetic is modelled on `Nat`: the generation loop only
  increments `layer` while `layer < layers ≤ 255`, so no `u8` overflow is
  reachable for the inputs exercised by the claims.
-/

namespace ZDG

/-- `Pos(pub isize, pub isize)` from `src/pos.rs`; field 0 is the row and
field 1 the column.  Equality and hashing are structural (derived). -/
structure Pos where
  row : Int
  col : Int
deriving DecidableEq, Repr

/-- Componentwise addition, as generated by `derive_more::Add`. -/
instance : Add Pos where
  add a b := ⟨a.row + b.row, a.col + b.col⟩

instance : Inhabited Pos := ⟨⟨0, 0⟩⟩

/-- `Pos::in_range`: the position itself if inside the (inclusive) bounds,
nothing otherwise. -/
def Pos.in_range (p : Pos) (row1 row2 col1 col2 : Int) : Option Pos :=
  if row1 ≤ p.row ∧ p.row ≤ row2 ∧ col1 ≤ p.col ∧ p.col ≤ col2 then some p else none

/-- `Line(pub Pos, pub Pos)`: an edge between two positions.  Lean's derived
`DecidableEq` is structural, mirroring the derived `Hash`; the Rust
`PartialEq` is the separate `lineEq` below. -/
structure Line where
  p1 : Pos
  p2 : Pos
deriving DecidableEq, Repr

/-- The custom `PartialEq for Line`: equal regardless of endpoint order. -/
def lineEq (a b : Line) : Bool :=
  (a.p1 == b.p1 && a.p2 == b.p2) || (a.p1 == b.p2 && a.p2 == b.p1)

/-- The word stream fed to the hasher by `#[derive(Hash)]` on `Line`: the
fields in declaration order.  Two `Line`s hash equal exactly when this input
coincides (up to astronomically unlikely SipHash collisions). -/
def Line.hashInput (l : Line) : List Int :=
  [l.p1.row, l.p1.col, l.p2.row, l.p2.col]

/-- `ConnectState` from `src/pos.rs`. -/
inductive ConnectState where
  | Open
  | Locked
  | Shortcut
deriving DecidableEq, Repr

/-- `Connection`: an edge paired with a traversal state. -/
structure Connection where
  line : Line
  state : ConnectState
deriving DecidableEq, Repr

/-- The room record actually exercised by `src/node_map.rs`: a layer ordinal
and an optional key payload naming the layer it unlocks (`node.key`,
`Node { key: Some(..), .. }`).  (`src/node.rs` declares a `has_key : bool`
variant that the generator does not use.) -/
structure Node where
  layer : Nat
  key : Option Nat
deriving DecidableEq, Repr

/-- `Node::default()`. -/
def Node.default : Node := ⟨0, none⟩

/-- `Node::with_layer`. -/
def Node.with_layer (layer : Nat) : Node := ⟨layer, none⟩

/-- The four directional unit offsets from `src/node_map.rs`. -/
def DIRECTIONS : List Pos := [⟨-1, 0⟩, ⟨1, 0⟩, ⟨0, -1⟩, ⟨0, 1⟩]

/-- `const RETRIES: i32 = 10`. -/
def RETRIES : Int := 10

/-- `NodeMap`: a `width × height` grid of optional rooms stored row-major,
plus the connection collection. -/
structure NodeMap where
  nodes : List (Option Node)
  connections : List Connection
  width : Int
  height : Int
deriving DecidableEq, Repr

/-- `NodeMap::with_size`: an all-empty grid. -/
def NodeMap.with_size (width height : Nat) : NodeMap :=
  { nodes := List.replicate (width * height) none
    connections := []
    width := (width : Int)
    height := (height : Int) }

/-- The row-major linear index `(row * self.width + col)` that `get_node`
and `set_node` compute. -/
def NodeMap.posIdx (m : NodeMap) (p : Pos) : Int :=
  p.row * m.width + p.col

/-- `NodeMap::get_node`: looks up `nodes[(row * width + col) as usize]`.
A negative linear index bit-casts to a huge `usize` and misses the vector;
there is no separate column bound check, so an out-of-bounds position whose
linear index lands inside the vector reads the aliased cell. -/
def NodeMap.get_node (m : NodeMap) (pos : Pos) : Option Node :=
  if 0 ≤ m.posIdx pos then
    match m.nodes.get? (m.posIdx pos).toNat with
    | some (some node) => some node
    | _ => none
  else none

/-- `NodeMap::set_node`: overwrites the cell at the linear index with
`Some node`.  Rust `unwrap`s the `get_mut`, panicking on an invalid index;
every generator call site passes a bounds-checked position (proved as part of
`StateInv`), where this total model agrees with the source. -/
def NodeMap.set_node (m : NodeMap) (pos : Pos) (node : Node) : NodeMap :=
  if 0 ≤ m.posIdx pos then
    { m with nodes := m.nodes.set (m.posIdx pos).toNat (some node) }
  else m

/-- `NodeMap::get_connection`: linear scan for the first connection whose
line equals the query under the order-insensitive `lineEq`. -/
def NodeMap.get_connection (m : NodeMap) (conn : Line) : Option Connection :=
  m.connections.find? (fun other_conn => lineEq conn other_conn.line)

/-- `NodeMap::add_connection`: appends unconditionally. -/
def NodeMap.add_connection (m : NodeMap) (conn : Connection) : NodeMap :=
  { m with connections := m.connections ++ [conn] }

/-- The random source: an infinite stream of naturals and a cursor. -/
structure Rng where
  stream : Nat → Nat
  idx : Nat

/-- Consume one draw. -/
def Rng.next (r : Rng) : Nat × Rng :=
  (r.stream r.idx, { r with idx := r.idx + 1 })

/-- `rng.gen_range(lo, hi)` on `isize`: uniform in `[lo, hi)`. -/
def genRange (lo hi : Int) (r : Rng) : Int × Rng :=
  let (n, r') := r.next
  (lo + Int.ofNat (n % (hi - lo).toNat), r')

/-- `rng.gen_range(lo, hi)` on `usize`. -/
def genRangeNat (lo hi : Nat) (r : Rng) : Nat × Rng :=
  let (n, r') := r.next
  (lo + n % (hi - lo), r')

/-- `IteratorRandom::choose`: `none` on an empty iterator, otherwise some
element; the model consumes one draw and picks index `n % len`. -/
def chooseList {α : Type} (l : List α) (r : Rng) : Option α × Rng :=
  match l with
  | [] => (none, r)
  | _ :: _ =>
    let (n, r') := r.next
    (l.get? (n % l.length), r')

/-- `IteratorRandom::choose_multiple(rng, k)`: `min k l.length` distinct
elements; the model repeatedly draws an index into the remaining elements. -/
def chooseMultiple {α : Type} [Inhabited α] (l : List α) (k : Nat) (r : Rng) : List α × Rng :=
  match k with
  | 0 => ([], r)
  | k' + 1 =>
    match l with
    | [] => ([], r)
    | _ :: _ =>
      let (n, r') := r.next
      let i := n % l.length
      let x := l.getD i default
      let (rest, r'') := chooseMultiple (l.eraseIdx i) k' r'
      (x :: rest, r'')

/-- A helper for concrete runs: a stream that reads from a list (0 beyond). -/
def mkRng (l : List Nat) : Rng := ⟨fun i => l.getD i 0, 0⟩

/-- `GeneratorState`: the generation snapshot, with the `Box`ed undo chain of
`prev_state` modelled as a nested optional snapshot. -/
inductive GeneratorState where
  | mk (prev_state : Option GeneratorState) (node_map : NodeMap)
      (pos_list : List Pos) (amount : Nat) (layer : Nat)

/-- Field accessor for the undo link. -/
def GeneratorState.prev_state : GeneratorState → Option GeneratorState
  | .mk p _ _ _ _ => p

/-- Field accessor for the room map. -/
def GeneratorState.node_map : GeneratorState → NodeMap
  | .mk _ m _ _ _ => m

/-- Field accessor for the placement-order list. -/
def GeneratorState.pos_list : GeneratorState → List Pos
  | .mk _ _ l _ _ => l

/-- Field accessor for the most recent layer's room count. -/
def GeneratorState.amount : GeneratorState → Nat
  | .mk _ _ _ a _ => a

/-- Field accessor for the current layer index. -/
def GeneratorState.layer : GeneratorState → Nat
  | .mk _ _ _ _ l => l

/-- `GeneratorState::available_spaces_with_skip`: neighbors of the positions
from index `skip` onward that are in bounds and unoccupied, deduplicated
(the `HashSet<Pos>` collect). -/
def GeneratorState.available_spaces_with_skip (s : GeneratorState) (skip : Nat) : List Pos :=
  (((s.pos_list.drop skip).flatMap (fun pos =>
      DIRECTIONS.filterMap (fun offset =>
        (pos + offset).in_range 0 (s.node_map.height - 1) 0 (s.node_map.width - 1))))
    |>.filter (fun pos => !(s.pos_list.contains pos))).dedup

/-- `GeneratorState::available_spaces`: skips everything placed before the
previous snapshot's own layer.  Rust `unwrap`s `prev_state`; the generator
only calls this on freshly derived children, which always carry a parent. -/
def GeneratorState.available_spaces (s : GeneratorState) : List Pos :=
  match s.prev_state with
  | some prev => s.available_spaces_with_skip (prev.pos_list.length - prev.amount)
  | none => []

/-- `GeneratorState::generate_node`: fail when no space is available,
otherwise place a room at a uniformly chosen available space. -/
def GeneratorState.generate_node (s : GeneratorState) (r : Rng) :
    Except String GeneratorState × Rng :=
  let spaces := s.available_spaces
  if spaces.length = 0 then
    (.error "No available spaces!", r)
  else
    let (i, r') := genRangeNat 0 spaces.length r
    let random_space := spaces.getD i default
    (.ok (.mk s.prev_state
        (s.node_map.set_node random_space (Node.with_layer s.layer))
        (s.pos_list ++ [random_space]) s.amount s.layer), r')

/-- The `for _ in 0..next_state.amount { next_state.generate_node(rng)? }`
loop of `generate_next_state`. -/
def genNodes (s : GeneratorState) (count : Nat) (r : Rng) :
    Except String GeneratorState × Rng :=
  match count with
  | 0 => (.ok s, r)
  | count' + 1 =>
    match s.generate_node r with
    | (.ok s', r') => genNodes s' count' r'
    | (.error e, r') => (.error e, r')

/-- `GeneratorState::generate_connections`, three passes over
`pos_list.skip(prev_state.amount)`: inter-layer connections (`Locked` unless
the parent is the root), intra-layer `Open` connections, and `Shortcut`
entries for remaining adjacencies without a connection. -/
def GeneratorState.generate_connections (s : GeneratorState) : GeneratorState :=
  match s.prev_state with
  | none => s
  | some prev =>
    let state := match prev.prev_state with
      | some _ => ConnectState.Locked
      | none => ConnectState.Open
    let prev_pos_list := prev.pos_list.drop (prev.pos_list.length - prev.amount)
    let m1 := (s.pos_list.drop prev.amount).foldl (fun m pos =>
      (((DIRECTIONS.map (fun offset => pos + offset)).filter
          (fun p => prev_pos_list.contains p)).map
        (fun other_pos => Connection.mk (Line.mk other_pos pos) state)).foldl
        NodeMap.add_connection m) s.node_map
    let curr_pos_list := s.pos_list.drop prev.pos_list.length
    let m2 := (s.pos_list.drop prev.amount).foldl (fun m pos =>
      ((((DIRECTIONS.map (fun offset => pos + offset)).filter
          (fun p => curr_pos_list.contains p)).map
        (fun other_pos => Connection.mk (Line.mk other_pos pos) ConnectState.Open)).dedup).foldl
        NodeMap.add_connection m) m1
    let m3 := (s.pos_list.drop prev.amount).foldl (fun m pos =>
      (((((DIRECTIONS.map (fun offset => pos + offset)).filter
          (fun p => s.pos_list.contains p)).map
        (fun other_pos => Line.mk other_pos pos)).filter
          (fun line => (m.get_connection line).isNone)).map
        (fun line => Connection.mk line ConnectState.Shortcut)).dedup.foldl
        NodeMap.add_connection m) m2
    .mk s.prev_state m3 s.pos_list s.amount s.layer

/-- One key assignment: re-read the room at `pos` and set its key to the
current layer (`Node { key: Some(next_state.layer), ..*get_node(pos) }`).
Rust `unwrap`s the `get_node`; chosen positions always resolve. -/
def keyStep (st : GeneratorState) (pos : Pos) : GeneratorState :=
  match st.node_map.get_node pos with
  | some node =>
    .mk st.prev_state (st.node_map.set_node pos ⟨node.layer, some st.layer⟩)
      st.pos_list st.amount st.layer
  | none => st

/-- The key-distribution pass at the end of `generate_next_state`: count the
connections between the rooms new in this advance and the parent's own layer,
then key that many randomly chosen eligible older rooms. -/
def distributeKeys (parent : GeneratorState) (s : GeneratorState) (r : Rng) :
    GeneratorState × Rng :=
  let key_amount := ((s.pos_list.drop parent.pos_list.length).map (fun pos =>
      ((parent.pos_list.drop (parent.pos_list.length - parent.amount)).filterMap
        (fun other_pos => s.node_map.get_connection (Line.mk pos other_pos))).length)).sum
  let eligible := (parent.pos_list.drop 1).filter (fun pos =>
    match parent.node_map.get_node pos with
    | some node => node.key.isNone
    | none => false)
  let (chosen, r') := chooseMultiple eligible key_amount r
  (chosen.foldl keyStep s, r')

/-- `GeneratorState::generate_next_state`: clone, link the parent, bump the
layer, draw an amount, place that many rooms, wire connections, and (unless
the parent is the root) distribute keys. -/
def GeneratorState.generate_next_state (s : GeneratorState) (r : Rng) :
    Except String GeneratorState × Rng :=
  let (amt, r1) := genRangeNat 4 8 r
  let next0 : GeneratorState := .mk (some s) s.node_map s.pos_list amt (s.layer + 1)
  match genNodes next0 amt r1 with
  | (.error e, r2) => (.error e, r2)
  | (.ok next1, r2) =>
    let next2 := next1.generate_connections
    if s.prev_state.isNone then (.ok next2, r2)
    else
      let (next3, r3) := distributeKeys s next2 r2
      (.ok next3, r3)

/-- `GeneratorState::generate_final_state`: append the terminal room at a
space available next to any placed room, lock it to one adjacent room, and
key one eligible room of the parent's own layer.  The three `unwrap`s on
empty choices are surfaced as `none` (a Rust panic). -/
def GeneratorState.generate_final_state (s : GeneratorState) (r : Rng) :
    Option (GeneratorState × Rng) :=
  let f0 : GeneratorState := .mk (some s) s.node_map s.pos_list s.amount (s.layer + 1)
  match chooseList (f0.available_spaces_with_skip 0) r with
  | (none, _) => none
  | (some end_pos, r1) =>
    let f1 : GeneratorState := .mk f0.prev_state
      (f0.node_map.set_node end_pos (Node.with_layer f0.layer))
      (f0.pos_list ++ [end_pos]) f0.amount f0.layer
    match chooseList ((DIRECTIONS.map (fun offset => end_pos + offset)).filter
        (fun pos => (f1.node_map.get_node pos).isSome)) r1 with
    | (none, _) => none
    | (some other_pos, r2) =>
      let f2 : GeneratorState := .mk f1.prev_state
        (f1.node_map.add_connection ⟨Line.mk end_pos other_pos, ConnectState.Locked⟩)
        f1.pos_list f1.amount f1.layer
      match chooseList ((s.pos_list.drop (s.pos_list.length - s.amount)).filter
          (fun pos =>
            match s.node_map.get_node pos with
            | some node => node.key.isNone
            | none => false)) r2 with
      | (none, _) => none
      | (some key_pos, r3) => some (keyStep f2 key_pos, r3)

/-- The observable outcome of `NodeMap::generate`: the finished map, the
explicit retry-exhaustion error, or a Rust panic. -/
inductive GenResult where
  | ok (m : NodeMap)
  | failed (msg : String)
  | panicked
deriving DecidableEq, Repr

/-- A scalar bound on the remaining iterations of the generation loop:
every iteration strictly decreases it (successes bump the layer, failures
consume a retry). -/
def loopMeasure (layers : Nat) (s : GeneratorState) (retries : Int) : Nat :=
  (retries + 1).toNat * (layers + 1) + (layers - s.layer)

/-- The `while state.layer < layers && retries_left >= 0` loop of
`NodeMap::generate`, including the rollback `state.prev_state.unwrap()`
(which panics when the failing snapshot is the root) and the final-state
step after the loop, written with explicit fuel so that it is structurally
recursive.  `genLoopF_eq_of_lt` proves the fuel-0 branch unreachable for
any fuel above `loopMeasure`, and `genLoop_unfold` recovers the literal
loop equation of the source. -/
def genLoopF (fuel : Nat) (layers : Nat) (s : GeneratorState) (retries : Int) (r : Rng) :
    GenResult :=
  match fuel with
  | 0 => .panicked
  | fuel' + 1 =>
    if s.layer < layers ∧ 0 ≤ retries then
      match s.generate_next_state r with
      | (.ok s', r') => genLoopF fuel' layers s' retries r'
      | (.error _, r') =>
        match s.prev_state with
        | some p => genLoopF fuel' layers p (retries - 1) r'
        | none => .panicked
    else
      if retries < 0 then
        .failed "Failed to generate after 10 retries"
      else
        match s.generate_final_state r with
        | some (final, _) => .ok final.node_map
        | none => .panicked

/-- The generation loop, run with fuel that `genLoopF_eq_of_lt` proves
sufficient. -/
def genLoop (layers : Nat) (s : GeneratorState) (retries : Int) (r : Rng) : GenResult :=
  genLoopF (loopMeasure layers s retries + 1) layers s retries r

/-- The construction of the root snapshot in `NodeMap::generate`: an empty
grid, a uniformly random in-bounds start position holding a default room. -/
def initialState (width height : Int) (r : Rng) : GeneratorState × Rng :=
  let initial_map := NodeMap.with_size width.toNat height.toNat
  let (row, r1) := genRange 0 initial_map.height r
  let (col, r2) := genRange 0 initial_map.width r1
  let initial_pos : Pos := ⟨row, col⟩
  let initial_map' := initial_map.set_node initial_pos Node.default
  (.mk none initial_map' [initial_pos] 1 0, r2)

/-- `NodeMap::generate`.  A non-positive width or height makes the initial
`gen_range(0, 0)` (or the huge `as usize` allocation) panic in Rust. -/
def NodeMap.generate (width height : Int) (layers : Nat) (r : Rng) : GenResult :=
  if width ≤ 0 ∨ height ≤ 0 then .panicked
  else
    let (initial_state, r2) := initialState width height r
    genLoop layers initial_state RETRIES r2

/-- Extract the map of a successful generation result (defaulting to the
empty grid; every use is paired with an equation showing the run succeeded). -/
def GenResult.resultMap : GenResult → NodeMap
  | .ok m => m
  | _ => NodeMap.with_size 0 0

instance : Inhabited GeneratorState := ⟨.mk none (NodeMap.with_size 0 0) [] 0 0⟩

/-- Extract the state of a successful advance (defaulting like `resultMap`;
every use is paired with an equation showing the advance succeeded). -/
def okState : Except String GeneratorState → GeneratorState
  | .ok s => s
  | .error _ => default

/-- `p` lies within `[0, height) × [0, width)` of `m`. -/
def NodeMap.inBoundsPos (m : NodeMap) (p : Pos) : Prop :=
  0 ≤ p.row ∧ p.row < m.height ∧ 0 ≤ p.col ∧ p.col < m.width

instance (m : NodeMap) (p : Pos) : Decidable (m.inBoundsPos p) := by
  unfold NodeMap.inBoundsPos
  infer_instance

/-- Shape well-formedness of a map: non-negative extents and a node vector
of exactly `width * height` cells (what `with_size` builds). -/
def NodeMap.WF (m : NodeMap) : Prop :=
  0 ≤ m.width ∧ 0 ≤ m.height ∧ m.nodes.length = (m.width * m.height).toNat

instance (m : NodeMap) : Decidable m.WF := by
  unfold NodeMap.WF
  infer_instance

/-- The key payload visible at a position. -/
def NodeMap.keyAt (m : NodeMap) (p : Pos) : Option Nat :=
  (m.get_node p).bind Node.key

/-- How many rooms of the map hold a key targeting layer `L`. -/
def NodeMap.keyCount (m : NodeMap) (L : Nat) : Nat :=
  ((m.nodes.filterMap id).filter (fun n => n.key == some L)).length

/-- The layer of the room at `p` (0 when absent; uses are guarded by room
existence). -/
def NodeMap.layerOf (m : NodeMap) (p : Pos) : Nat :=
  ((m.get_node p).map Node.layer).getD 0

/-- How many stored `Locked` connection entries have their far (deeper)
endpoint in layer `L`. -/
def NodeMap.lockedFarCount (m : NodeMap) (L : Nat) : Nat :=
  (m.connections.filter (fun c => c.state == ConnectState.Locked &&
    max (m.layerOf c.line.p1) (m.layerOf c.line.p2) == L)).length

/-- Whether the connection collection stores two entries, at distinct
positions of the collection, whose lines are equal under the
order-insensitive edge equality. -/
def NodeMap.hasDupEdge (m : NodeMap) : Bool :=
  m.connections.any (fun c =>
    2 ≤ (m.connections.filter (fun c2 => lineEq c.line c2.line)).length)

/-- The spec's reading of `getRoom` (§4.2), written from the spec's words
for comparison with `get_node`: nothing for any position outside
`[0,height) × [0,width)`, otherwise the cell's content. -/
def NodeMap.get_node_spec (m : NodeMap) (pos : Pos) : Option Node :=
  if m.inBoundsPos pos then m.nodes.getD (m.posIdx pos).toNat none else none

/-- The spec's description of the available-space set (§4.3), written from
the spec's words for comparison with `available_spaces`: in-bounds,
unoccupied four-directional neighbors of only the positions placed during
the previous layer step. -/
def available_spaces_spec (s : GeneratorState) : List Pos :=
  match s.prev_state with
  | some prev =>
    (((prev.pos_list.drop (prev.pos_list.length - prev.amount)).flatMap (fun pos =>
        DIRECTIONS.filterMap (fun offset =>
          (pos + offset).in_range 0 (s.node_map.height - 1) 0 (s.node_map.width - 1))))
      |>.filter (fun pos => !(s.pos_list.contains pos))).dedup
  | none => []

/-- The state invariant maintained by the generator: well-formed extents,
placed positions in bounds and pairwise distinct, every placed position
resolving to a room, every occupied cell coming from a placed position, and
every stored connection endpoint resolving to a room. -/
def StateInv (s : GeneratorState) : Prop :=
  s.node_map.WF ∧
  (∀ p ∈ s.pos_list, s.node_map.inBoundsPos p) ∧
  s.pos_list.Nodup ∧
  (∀ p ∈ s.pos_list, (s.node_map.get_node p).isSome = true) ∧
  (∀ i, i < s.node_map.nodes.length →
    (s.node_map.nodes.getD i none).isSome = true →
    ∃ q, q ∈ s.pos_list ∧ s.node_map.posIdx q = (i : Int)) ∧
  (∀ c ∈ s.node_map.connections,
    (s.node_map.get_node c.line.p1).isSome = true ∧
    (s.node_map.get_node c.line.p2).isSome = true)

instance (s : GeneratorState) : Decidable (StateInv s) := by
  unfold StateInv
  infer_instance

/-- Every snapshot along the undo chain satisfies the state invariant. -/
def ChainInv : GeneratorState → Prop
  | .mk none m pl a l => StateInv (.mk none m pl a l)
  | .mk (some p) m pl a l => StateInv (.mk (some p) m pl a l) ∧ ChainInv p

/-- Every room of `m` is still a room of `m'` (at the same position). -/
def PreservesRooms (m m' : NodeMap) : Prop :=
  ∀ p, (m.get_node p).isSome = true → (m'.get_node p).isSome = true

/-- Occupied cells of `m` are literally unchanged in `m'`. -/
def PreservesOcc (m m' : NodeMap) : Prop :=
  ∀ p, (m.get_node p).isSome = true → m'.get_node p = m.get_node p

/-- Keys placed in `m` are still present in `m'`. -/
def PreservesKeys (m m' : NodeMap) : Prop :=
  ∀ p l, m.keyAt p = some l → m'.keyAt p = some l

/-- Both endpoints of the connection resolve to rooms of `m`. -/
def endpointsOk (m : NodeMap) (c : Connection) : Prop :=
  (m.get_node c.line.p1).isSome = true ∧ (m.get_node c.line.p2).isSome = true

/-- Extract the state of a finalize result (defaulting like `okState`;
every use is paired with an equation showing the step succeeded). -/
def finalOf : Option (GeneratorState × Rng) → GeneratorState
  | some (f, _) => f
  | none => default

/-- Extract the draw source of a finalize result. -/
def finalRngOf (r : Rng) : Option (GeneratorState × Rng) → Rng
  | some (_, r2) => r2
  | none => r

/-- The root snapshot `generate 1 1 3` builds for any draw stream: a single
cell holding the start room. -/
def root11 : GeneratorState :=
  .mk none ⟨[some Node.default], [], 1, 1⟩ [⟨0, 0⟩] 1 0

/-- A concrete full run on a 6 × 6 grid with two layers, driven by the
all-zeros draw stream; it succeeds and exhibits the connection-window
defects analysed below. -/
def cexRun : GenResult := NodeMap.generate 6 6 2 (mkRng [])

/-- The map produced by `cexRun`. -/
def cexMap : NodeMap := cexRun.resultMap

/-- A small map with a room at (1,0), used to exhibit index aliasing in
`get_node`. -/
def aliasMap : NodeMap := (NodeMap.with_size 2 2).set_node ⟨1, 0⟩ (Node.with_layer 5)

/-- A concrete root snapshot on a 3 × 3 grid with the start room at (0,0),
exactly as `initialState 3 3` builds it for the all-zeros stream. -/
def cexRoot : GeneratorState :=
  .mk none ((NodeMap.with_size 3 3).set_node ⟨0, 0⟩ Node.default) [⟨0, 0⟩] 1 0

/-- The clone `generate_next_state` derives from `cexRoot` before the
placement loop: parent linked, layer 1, amount 4 (the draw `4 + 0 % 4`). -/
def cexAdvance0 : GeneratorState :=
  .mk (some cexRoot) cexRoot.node_map cexRoot.pos_list 4 1

/-- The mid-advance state after the first of the four placement iterations,
with the first new room steered to (0,1). -/
def cexMid : GeneratorState := okState (cexAdvance0.generate_node (mkRng [1])).1

/-- A concrete root snapshot on the 6 × 6 grid (the root of `cexRun`). -/
def cexRoot66 : GeneratorState :=
  .mk none ((NodeMap.with_size 6 6).set_node ⟨0, 0⟩ Node.default) [⟨0, 0⟩] 1 0

/-- First advance of the 6 × 6 zero-stream run. -/
def step1 : Except String GeneratorState × Rng :=
  cexRoot66.generate_next_state (mkRng [])

/-- Second advance of the 6 × 6 zero-stream run (keys get distributed). -/
def step2 : Except String GeneratorState × Rng :=
  (okState step1.1).generate_next_state step1.2

/-- Third advance of the 6 × 6 zero-stream run, used to witness that an
advance preserves previously placed keys. -/
def step3 : Except String GeneratorState × Rng :=
  (okState step2.1).generate_next_state step2.2

/-- `generate_next_state` always bumps the layer by exactly one on success
(needed for the termination of the generation loop). -/
theorem genNodes_layer (count : Nat) :
    ∀ (s : GeneratorState) (r : Rng) (s' : GeneratorState) (r' : Rng),
      genNodes s count r = (.ok s', r') → s'.layer = s.layer := by
  induction count with
  | zero =>
    intro s r s' r' h
    simp only [genNodes] at h
    cases h
    rfl
  | succ n ih =>
    intro s r s' r' h
    simp only [genNodes] at h
    rcases hg : s.generate_node r with ⟨res, r1⟩
    cases res with
    | ok s1 =>
      rw [hg] at h
      have hlayer : s1.layer = s.layer := by
        simp only [GeneratorState.generate_node] at hg
        split at hg
        · cases hg
        · simp only [genRangeNat] at hg
          cases hg
          rfl
      rw [← hlayer]
      exact ih s1 r1 s' r' h
    | error e =>
      rw [hg] at h
      cases h

/-- `generate_connections` leaves the layer alone. -/
theorem generate_connections_layer (s : GeneratorState) :
    s.generate_connections.layer = s.layer := by
  unfold GeneratorState.generate_connections
  cases hp : s.prev_state with
  | none => rfl
  | some prev => rfl

/-- A fold of `keyStep` leaves the layer alone. -/
theorem foldl_keyStep_layer (chosen : List Pos) (s : GeneratorState) :
    (chosen.foldl keyStep s).layer = s.layer := by
  induction chosen generalizing s with
  | nil => rfl
  | cons p ps ih =>
    simp only [List.foldl_cons]
    rw [ih]
    unfold keyStep
    split <;> rfl

/-- `distributeKeys` leaves the layer alone. -/
theorem distributeKeys_layer (parent s : GeneratorState) (r : Rng) :
    (distributeKeys parent s r).1.layer = s.layer := by
  unfold distributeKeys
  exact foldl_keyStep_layer _ _

/-- On success, `generate_next_state` produces a state whose layer is the
parent's plus one. -/
theorem generate_next_state_layer (s : GeneratorState) (r : Rng)
    (s' : GeneratorState) (r' : Rng)
    (h : s.generate_next_state r = (.ok s', r')) : s'.layer = s.layer + 1 := by
  unfold GeneratorState.generate_next_state at h
  rcases hg : genNodes (.mk (some s) s.node_map s.pos_list (genRangeNat 4 8 r).1 (s.layer + 1))
      (genRangeNat 4 8 r).1 (genRangeNat 4 8 r).2 with ⟨res, r2⟩
  simp only [hg] at h
  cases res with
  | error e => cases h
  | ok next1 =>
    have h1 : next1.layer = s.layer + 1 := genNodes_layer _ _ _ _ _ hg
    by_cases hroot : s.prev_state.isNone
    · simp only [hroot, if_true] at h
      cases h
      rw [generate_connections_layer, h1]
    · simp only [hroot, if_false, Bool.false_eq_true] at h
      cases h
      rw [distributeKeys_layer, generate_connections_layer, h1]

/-- The measure drops by one on a successful layer advance. -/
theorem loopMeasure_ok (layers : Nat) (s : GeneratorState) (retries : Int) (r : Rng)
    (s' : GeneratorState) (r' : Rng) (hc : s.layer < layers ∧ 0 ≤ retries)
    (hstep : s.generate_next_state r = (.ok s', r')) :
    loopMeasure layers s' retries < loopMeasure layers s retries := by
  have hl := generate_next_state_layer s r s' r' hstep
  unfold loopMeasure
  omega

/-- The measure drops on a failed advance and rollback, whatever the layer
of the parent snapshot. -/
theorem loopMeasure_err (layers : Nat) (s p : GeneratorState) (retries : Int)
    (hc : s.layer < layers ∧ 0 ≤ retries) :
    loopMeasure layers p (retries - 1) < loopMeasure layers s retries := by
  unfold loopMeasure
  have h1 : (retries - 1 + 1).toNat * (layers + 1) = retries.toNat * (layers + 1) := by
    congr 1
    omega
  have h2 : (retries + 1).toNat * (layers + 1) =
      retries.toNat * (layers + 1) + (layers + 1) := by
    have h3 : (retries + 1).toNat = retries.toNat + 1 := by omega
    rw [h3, Nat.add_mul, Nat.one_mul]
  have h4 : layers - p.layer ≤ layers := Nat.sub_le _ _
  omega

/-- The fueled loop is insensitive to the fuel once it exceeds the measure:
the fuel-0 branch is unreachable. -/
theorem genLoopF_eq_of_lt (fuel1 : Nat) :
    ∀ (fuel2 layers : Nat) (s : GeneratorState) (retries : Int) (r : Rng),
      loopMeasure layers s retries < fuel1 → loopMeasure layers s retries < fuel2 →
      genLoopF fuel1 layers s retries r = genLoopF fuel2 layers s retries r := by
  induction fuel1 with
  | zero => intro fuel2 layers s retries r h1 h2; omega
  | succ f1 ih =>
    intro fuel2 layers s retries r h1 h2
    match fuel2, h2 with
    | f2 + 1, h2 =>
      simp only [genLoopF]
      by_cases hc : s.layer < layers ∧ 0 ≤ retries
      · rw [if_pos hc, if_pos hc]
        rcases hstep : s.generate_next_state r with ⟨res, r'⟩
        cases res with
        | ok s' =>
          exact ih f2 layers s' retries r'
            (by have := loopMeasure_ok layers s retries r s' r' hc hstep; omega)
            (by have := loopMeasure_ok layers s retries r s' r' hc hstep; omega)
        | error e =>
          cases hp : s.prev_state with
          | none => rfl
          | some p =>
            exact ih f2 layers p (retries - 1) r'
              (by have := loopMeasure_err layers s p retries hc; omega)
              (by have := loopMeasure_err layers s p retries hc; omega)
      · rw [if_neg hc, if_neg hc]

/-- `genLoop` satisfies the literal loop equation of `NodeMap::generate`:
run one iteration of the `while` while the layer target is unreached and
retries remain (rolling back to the parent on failure, panicking on the
root's missing parent), else surface retry exhaustion or run the final
state. -/
theorem genLoop_unfold (layers : Nat) (s : GeneratorState) (retries : Int) (r : Rng) :
    genLoop layers s retries r =
      (if s.layer < layers ∧ 0 ≤ retries then
        match s.generate_next_state r with
        | (.ok s', r') => genLoop layers s' retries r'
        | (.error _, r') =>
          match s.prev_state with
          | some p => genLoop layers p (retries - 1) r'
          | none => .panicked
      else
        if retries < 0 then
          .failed "Failed to generate after 10 retries"
        else
          match s.generate_final_state r with
          | some (final, _) => .ok final.node_map
          | none => .panicked) := by
  unfold genLoop
  simp only [genLoopF]
  by_cases hc : s.layer < layers ∧ 0 ≤ retries
  · rw [if_pos hc, if_pos hc]
    rcases hstep : s.generate_next_state r with ⟨res, r'⟩
    cases res with
    | ok s' =>
      exact genLoopF_eq_of_lt _ _ layers s' retries r'
        (loopMeasure_ok layers s retries r s' r' hc hstep) (Nat.lt_succ_self _)
    | error e =>
      cases hp : s.prev_state with
      | none => rfl
      | some p =>
        exact genLoopF_eq_of_lt _ _ layers p (retries - 1) r'
          (loopMeasure_err layers s p retries hc) (Nat.lt_succ_self _)
  · rw [if_neg hc, if_neg hc]

/-- On a 1 × 1 grid the start position is forced, so every draw stream
builds the same root snapshot. -/
theorem initialState11 (rr : Rng) : (initialState 1 1 rr).1 = root11 := by
  unfold initialState
  simp [genRange, Rng.next, Nat.mod_one, NodeMap.with_size, NodeMap.set_node, NodeMap.posIdx,
    root11]

/-- On the full 1 × 1 grid the placement loop fails at its first iteration:
no neighbor of the start cell is in bounds. -/
theorem genNodes11 (a k : Nat) (rr2 : Rng) :
    genNodes (.mk (some root11) root11.node_map root11.pos_list a (root11.layer + 1))
      (k + 1) rr2 = (.error "No available spaces!", rr2) := rfl

/-- Every layer advance attempted from the 1 × 1 root snapshot fails with
the no-space error, consuming only the amount draw. -/
theorem next11 (rr : Rng) : root11.generate_next_state rr =
    (.error "No available spaces!", rr.next.2) := by
  unfold GeneratorState.generate_next_state
  have hgr : genRangeNat 4 8 rr = (4 + rr.next.1 % 4, rr.next.2) := rfl
  simp only [hgr]
  have h4 : 4 + rr.next.1 % 4 = (3 + rr.next.1 % 4) + 1 := by omega
  simp only [h4]
  rw [genNodes11]

/-- The generation loop on the 1 × 1 root snapshot takes the failure branch
of its first iteration and `unwrap`s the root's missing parent. -/
theorem loop11 (rr : Rng) : genLoop 3 root11 10 rr = .panicked := by
  rw [genLoop_unfold]
  rw [if_pos (by constructor <;> decide)]
  rw [next11]
  rfl

/-- C1: `generate(1, 1, 3)` never returns the retry-exhaustion error and
never hangs — it always panics.  The first layer advance fails for lack of
space, and the retry path executes `state.prev_state.unwrap()` on the root
snapshot, whose `prev_state` is `None`
(`src/node_map.rs:243`), for every possible draw stream. -/
theorem generate_1_1_3_panics (r : Rng) : NodeMap.generate 1 1 3 r = .panicked := by
  unfold NodeMap.generate
  rw [if_neg (by norm_num)]
  rcases h : initialState 1 1 r with ⟨s0, r2⟩
  have h1 : s0 = root11 := by
    have h2 := initialState11 r
    rw [h] at h2
    exact h2
  rw [h1]
  exact loop11 r2

/-- C3: the key-count invariant fails on the map returned by the concrete
6 × 6, two-layer, zero-stream run: no room holds a key targeting layer 1,
yet two stored `Locked` connection entries have their far endpoint in a
layer-1 room (both endpoints are layer-1 rooms, a by-product of the
`skip(prev_state.amount)` window in `generate_connections`). -/
theorem key_count_mismatch :
    cexRun = .ok cexMap ∧ cexMap.keyCount 1 = 0 ∧ cexMap.lockedFarCount 1 = 2 := by
  refine ⟨rfl, by decide, by decide⟩

/-- C4: the map returned by the concrete 6 × 6, two-layer, zero-stream run
stores two connection entries whose lines are equal under the
order-insensitive edge equality, so the at-most-one-connection-per-edge
property fails on a map `generate` returns. -/
theorem duplicate_edge_entries :
    cexRun = .ok cexMap ∧ cexMap.hasDupEdge = true := by
  refine ⟨rfl, by decide⟩

/-- C5: in the concrete 6 × 6, two-layer, zero-stream run, the second
advance adds a `Locked` connection both of whose endpoints are layer-1
rooms — rooms of the *previous* layer — because `generate_connections`
iterates `pos_list.skip(prev_state.amount)`, which from the second advance
onward still contains older rooms; so inter-layer connections are not added
exactly between newly placed rooms and previous-layer neighbors. -/
theorem locked_connection_between_old_rooms :
    cexRun = .ok cexMap ∧
    Connection.mk (Line.mk ⟨0, 1⟩ ⟨1, 1⟩) ConnectState.Locked ∈ cexMap.connections ∧
    cexMap.layerOf ⟨0, 1⟩ = 1 ∧ cexMap.layerOf ⟨1, 1⟩ = 1 := by
  refine ⟨rfl, by decide, by decide, by decide⟩

/-- C6 (counterexample): `getRoom` does not return nothing on every
out-of-bounds position: on a 2 × 2 grid with a room at (1,0), the position
(0,2) — whose column exceeds the width — aliases linear index 2 and returns
that room. -/
theorem get_node_out_of_bounds_aliases :
    ¬ aliasMap.inBoundsPos ⟨0, 2⟩ ∧
    aliasMap.get_node ⟨0, 2⟩ = some (Node.with_layer 5) := by
  refine ⟨by decide, by decide⟩

/-- Placement during the node loop leaves the undo link alone. -/
theorem genNodes_prev (count : Nat) :
    ∀ (s : GeneratorState) (r : Rng) (s' : GeneratorState) (r' : Rng),
      genNodes s count r = (.ok s', r') → s'.prev_state = s.prev_state := by
  induction count with
  | zero =>
    intro s r s' r' h
    simp only [genNodes] at h
    cases h
    rfl
  | succ n ih =>
    intro s r s' r' h
    simp only [genNodes] at h
    rcases hg : s.generate_node r with ⟨res, r1⟩
    cases res with
    | ok s1 =>
      rw [hg] at h
      have hp : s1.prev_state = s.prev_state := by
        simp only [GeneratorState.generate_node] at hg
        split at hg
        · cases hg
        · simp only [genRangeNat] at hg
          cases hg
          rfl
      rw [← hp]
      exact ih s1 r1 s' r' h
    | error e =>
      rw [hg] at h
      cases h

/-- Wiring connections leaves the undo link alone. -/
theorem generate_connections_prev (s : GeneratorState) :
    s.generate_connections.prev_state = s.prev_state := by
  unfold GeneratorState.generate_connections
  cases hp : s.prev_state with
  | none => exact hp
  | some prev => rfl

/-- Key assignment leaves the undo link alone. -/
theorem foldl_keyStep_prev (chosen : List Pos) (s : GeneratorState) :
    (chosen.foldl keyStep s).prev_state = s.prev_state := by
  induction chosen generalizing s with
  | nil => rfl
  | cons p ps ih =>
    simp only [List.foldl_cons]
    rw [ih]
    unfold keyStep
    split <;> rfl

/-- Key distribution leaves the undo link alone. -/
theorem distributeKeys_prev (parent s : GeneratorState) (r : Rng) :
    (distributeKeys parent s r).1.prev_state = s.prev_state := by
  unfold distributeKeys
  exact foldl_keyStep_prev _ _

/-- C9: a layer advance never mutates the snapshot it was attempted from.
In this pure model the parent is untouched by construction; the content of
the claim is that a successful `generate_next_state` hands back a child
whose stored `prev_state` is exactly the snapshot the advance started from
— with room map, placement list, amount and layer unchanged — because the
parent is cloned into the undo link before any mutation of the child, and
the rollback path of the generation loop resumes precisely that snapshot. -/
theorem advance_retains_parent (s : GeneratorState) (r : Rng) (s' : GeneratorState)
    (r' : Rng) (h : s.generate_next_state r = (.ok s', r')) :
    s'.prev_state = some s := by
  unfold GeneratorState.generate_next_state at h
  rcases hg : genNodes (.mk (some s) s.node_map s.pos_list (genRangeNat 4 8 r).1 (s.layer + 1))
      (genRangeNat 4 8 r).1 (genRangeNat 4 8 r).2 with ⟨res, r2⟩
  simp only [hg] at h
  cases res with
  | error e => cases h
  | ok next1 =>
    have h1 : next1.prev_state = some s := genNodes_prev _ _ _ _ _ hg
    by_cases hroot : s.prev_state.isNone
    · simp only [hroot, if_true] at h
      cases h
      rw [generate_connections_prev, h1]
    · simp only [hroot, if_false, Bool.false_eq_true] at h
      cases h
      rw [distributeKeys_prev, generate_connections_prev, h1]

/-- Witness for C9: a concrete successful advance from the 3 × 3 root
snapshot stores that exact root as its parent. -/
theorem advance_retains_parent_witness :
    (cexRoot.generate_next_state (mkRng [])).1 =
      .ok (okState (cexRoot.generate_next_state (mkRng [])).1) ∧
    (okState (cexRoot.generate_next_state (mkRng [])).1).prev_state = some cexRoot := by
  constructor
  · rfl
  · exact advance_retains_parent cexRoot (mkRng []) _ _ rfl

/-- `in_range` characterised as a proposition. -/
theorem in_range_eq_some (p q : Pos) (r1 r2 c1 c2 : Int) :
    p.in_range r1 r2 c1 c2 = some q ↔
      ((r1 ≤ p.row ∧ p.row ≤ r2 ∧ c1 ≤ p.col ∧ p.col ≤ c2) ∧ p = q) := by
  unfold Pos.in_range
  split
  · simp_all
  · simp_all

/-- C7 (counterexample): mid-advance, the available-space set is not the
spec's set.  After the first placement iteration of the first advance on a
3 × 3 grid (start room (0,0), first new room (0,1)), position (1,1) — a
neighbor of the just-placed room only — is available to the code but not in
the set described by the claim. -/
theorem available_spaces_not_spec :
    (cexAdvance0.generate_node (mkRng [1])).1 = .ok cexMid ∧
    (⟨1, 1⟩ : Pos) ∈ cexMid.available_spaces ∧
    (⟨1, 1⟩ : Pos) ∉ available_spaces_spec cexMid := by
  refine ⟨rfl, by decide, by decide⟩

/-- C7 (amended): during each placement iteration of an advance, the
available-space set consists of the in-bounds, unoccupied four-directional
neighbors of the previous layer's positions *together with the rooms already
placed during the current advance* (the positions from index
`prev.pos_list.length - prev.amount` of the growing placement list onward),
duplicates removed; and the iteration fails with the no-space error exactly
when this set is empty. -/
theorem available_spaces_characterization (s prev : GeneratorState) (p : Pos)
    (hprev : s.prev_state = some prev) :
    (p ∈ s.available_spaces ↔
      (0 ≤ p.row ∧ p.row ≤ s.node_map.height - 1 ∧ 0 ≤ p.col ∧ p.col ≤ s.node_map.width - 1) ∧
      p ∉ s.pos_list ∧
      (∃ q ∈ s.pos_list.drop (prev.pos_list.length - prev.amount),
        ∃ d ∈ DIRECTIONS, q + d = p)) ∧
    (∀ r : Rng, (s.generate_node r).1 = .error "No available spaces!" ↔
      s.available_spaces = []) := by
  constructor
  · unfold GeneratorState.available_spaces
    rw [hprev]
    unfold GeneratorState.available_spaces_with_skip
    simp [List.mem_dedup, List.mem_filter, List.mem_flatMap, List.mem_filterMap,
      in_range_eq_some]
    constructor
    · rintro ⟨⟨q, hq, d, hd, hbounds, heq⟩, hnot⟩
      subst heq
      exact ⟨hbounds, hnot, q, hq, d, hd, rfl⟩
    · rintro ⟨hbounds, hnot, q, hq, d, hd, heq⟩
      subst heq
      exact ⟨⟨q, hq, d, hd, hbounds, rfl⟩, hnot⟩
  · intro r
    unfold GeneratorState.generate_node
    by_cases hlen : s.available_spaces.length = 0
    · rw [if_pos hlen]
      simp [List.length_eq_zero] at hlen
      simp [hlen]
    · rw [if_neg hlen]
      simp [List.length_eq_zero] at hlen
      simp [hlen]

/-- Witness for C7 (amended): the characterization applied to the concrete
mid-advance state shows (1,1) available. -/
theorem available_spaces_characterization_witness :
    (⟨1, 1⟩ : Pos) ∈ cexMid.available_spaces :=
  (available_spaces_characterization cexMid cexRoot ⟨1, 1⟩ rfl).1.mpr
    ⟨by decide, by decide, ⟨0, 1⟩, by decide, ⟨1, 0⟩, by decide, by decide⟩

/-- Joining the double option of a cell lookup is the `getD none` read. -/
theorem join_eq_getD (l : List (Option Node)) (i : Nat) :
    (l.get? i).join = l.getD i none := by
  rw [List.getD_eq_getElem?_getD, List.get?_eq_getElem?]
  rcases l[i]? with _ | o
  · rfl
  · rfl

/-- For a non-negative linear index, `get_node` is the joined cell lookup. -/
theorem get_node_join (m : NodeMap) (p : Pos) (h : 0 ≤ m.posIdx p) :
    m.get_node p = (m.nodes.get? (m.posIdx p).toNat).join := by
  unfold NodeMap.get_node
  rw [if_pos h]
  rcases hx : m.nodes.get? (m.posIdx p).toNat with _ | n
  · rfl
  · rcases n with _ | node <;> rfl

/-- C6 (amended): on a well-formed map, `get_node` agrees with the spec's
bounds-checked lookup for in-bounds positions (so an empty in-bounds cell
yields nothing), returns nothing whenever the linear row-major index falls
outside the node vector, but for an out-of-bounds position whose linear
index lands inside the vector it returns the cell of the aliased in-bounds
position `(idx / width, idx % width)` — such positions are indistinguishable
from that aliased cell, not from an empty one. -/
theorem get_node_characterization (m : NodeMap) (p : Pos) (hWF : m.WF) :
    (m.inBoundsPos p → m.get_node p = m.get_node_spec p) ∧
    ((m.posIdx p < 0 ∨ m.nodes.length ≤ (m.posIdx p).toNat) → m.get_node p = none) ∧
    (¬ m.inBoundsPos p → 0 ≤ m.posIdx p → (m.posIdx p).toNat < m.nodes.length →
      m.inBoundsPos ⟨m.posIdx p / m.width, m.posIdx p % m.width⟩ ∧
      m.get_node p = m.get_node ⟨m.posIdx p / m.width, m.posIdx p % m.width⟩) := by
  obtain ⟨hw, hh, hlen⟩ := hWF
  refine ⟨?_, ?_, ?_⟩
  · intro hin
    obtain ⟨hr0, hrh, hc0, hcw⟩ := hin
    have h0 : 0 ≤ m.posIdx p := by
      have h1 : 0 ≤ p.row * m.width := mul_nonneg hr0 hw
      unfold NodeMap.posIdx
      omega
    rw [get_node_join m p h0]
    unfold NodeMap.get_node_spec
    rw [if_pos ⟨hr0, hrh, hc0, hcw⟩]
    exact join_eq_getD _ _
  · intro h
    rcases h with hneg | hlen2
    · unfold NodeMap.get_node
      rw [if_neg (by omega)]
    · by_cases h0 : 0 ≤ m.posIdx p
      · rw [get_node_join m p h0, List.get?_eq_none.mpr hlen2]
        rfl
      · unfold NodeMap.get_node
        rw [if_neg h0]
  · intro hnotin h0 hlt
    have hKpos : 0 < m.nodes.length := by omega
    have hwpos : 0 < m.width := by
      by_contra hc
      push_neg at hc
      have hK : m.width * m.height ≤ 0 := by nlinarith
      omega
    have hidxlt : m.posIdx p < m.width * m.height := by omega
    have hq : m.posIdx ⟨m.posIdx p / m.width, m.posIdx p % m.width⟩ = m.posIdx p := by
      show m.posIdx p / m.width * m.width + m.posIdx p % m.width = m.posIdx p
      rw [mul_comm]
      exact Int.ediv_add_emod _ _
    constructor
    · refine ⟨Int.ediv_nonneg h0 hw, ?_, Int.emod_nonneg _ (ne_of_gt hwpos),
        Int.emod_lt_of_pos _ hwpos⟩
      exact (Int.ediv_lt_iff_lt_mul hwpos).mpr (by rw [mul_comm] at hidxlt; exact hidxlt)
    · rw [get_node_join m p h0, get_node_join m _ (by rw [hq]; exact h0), hq]

/-- Witness for C6 (amended): on the concrete 2 × 2 alias map, position
(0,2) reads the aliased cell (1,0), and (-1,1) with its negative linear
index reads nothing. -/
theorem get_node_characterization_witness :
    aliasMap.get_node ⟨0, 2⟩ = aliasMap.get_node ⟨1, 0⟩ ∧
    aliasMap.get_node ⟨-1, 1⟩ = none := by
  constructor
  · have h3 := (get_node_characterization aliasMap ⟨0, 2⟩ (by decide)).2.2
      (by decide) (by decide) (by decide)
    rw [show (⟨1, 0⟩ : Pos) =
      (⟨aliasMap.posIdx ⟨0, 2⟩ / aliasMap.width, aliasMap.posIdx ⟨0, 2⟩ % aliasMap.width⟩ : Pos)
      from by decide]
    exact h3.2
  · exact (get_node_characterization aliasMap ⟨-1, 1⟩ (by decide)).2.1 (Or.inl (by decide))

/-- C10: edge equality is endpoint-order-insensitive for all positions,
while the derived hash input is order-sensitive: for `A = (0,0)`,
`B = (0,1)` the reversed lines are `lineEq`-equal yet feed different words
to the hasher, and the structural dedup that models `HashSet<Connection>`
keeps both reversed entries. -/
theorem line_eq_symm_hash_ordered :
    (∀ a b : Pos, lineEq ⟨a, b⟩ ⟨b, a⟩ = true) ∧
    ((⟨0, 0⟩ : Pos) ≠ (⟨0, 1⟩ : Pos) ∧
      lineEq ⟨⟨0, 0⟩, ⟨0, 1⟩⟩ ⟨⟨0, 1⟩, ⟨0, 0⟩⟩ = true ∧
      Line.hashInput ⟨⟨0, 0⟩, ⟨0, 1⟩⟩ ≠ Line.hashInput ⟨⟨0, 1⟩, ⟨0, 0⟩⟩ ∧
      ([Connection.mk ⟨⟨0, 0⟩, ⟨0, 1⟩⟩ .Open,
        Connection.mk ⟨⟨0, 1⟩, ⟨0, 0⟩⟩ .Open].dedup).length = 2) := by
  constructor
  · intro a b
    simp [lineEq]
  · refine ⟨by decide, by decide, by decide, by decide⟩


theorem set_node_width (m : NodeMap) (p : Pos) (x : Node) :
    (m.set_node p x).width = m.width := by
  unfold NodeMap.set_node
  split <;> rfl

theorem set_node_height (m : NodeMap) (p : Pos) (x : Node) :
    (m.set_node p x).height = m.height := by
  unfold NodeMap.set_node
  split <;> rfl

theorem set_node_connections (m : NodeMap) (p : Pos) (x : Node) :
    (m.set_node p x).connections = m.connections := by
  unfold NodeMap.set_node
  split <;> rfl

theorem set_node_length (m : NodeMap) (p : Pos) (x : Node) :
    (m.set_node p x).nodes.length = m.nodes.length := by
  unfold NodeMap.set_node
  split
  · exact List.length_set m.nodes _ _
  · rfl

theorem set_node_posIdx (m : NodeMap) (p q : Pos) (x : Node) :
    (m.set_node q x).posIdx p = m.posIdx p := by
  unfold NodeMap.posIdx
  rw [set_node_width]

theorem set_node_inBounds (m : NodeMap) (p q : Pos) (x : Node) :
    (m.set_node q x).inBoundsPos p ↔ m.inBoundsPos p := by
  unfold NodeMap.inBoundsPos
  rw [set_node_width, set_node_height]

theorem set_node_WF (m : NodeMap) (q : Pos) (x : Node) (h : m.WF) :
    (m.set_node q x).WF := by
  obtain ⟨h1, h2, h3⟩ := h
  refine ⟨?_, ?_, ?_⟩
  · rw [set_node_width]; exact h1
  · rw [set_node_height]; exact h2
  · rw [set_node_length, set_node_width, set_node_height]; exact h3

theorem get_node_congr (m m' : NodeMap) (p : Pos) (h1 : m'.nodes = m.nodes)
    (h2 : m'.width = m.width) : m'.get_node p = m.get_node p := by
  unfold NodeMap.get_node NodeMap.posIdx
  rw [h1, h2]

theorem add_connection_get_node (m : NodeMap) (c : Connection) (p : Pos) :
    (m.add_connection c).get_node p = m.get_node p := rfl

/-- The joint effect of `set_node` on `get_node`, as one equation. -/
theorem get_node_set (m : NodeMap) (p q : Pos) (x : Node) :
    (m.set_node q x).get_node p =
      if 0 ≤ m.posIdx q ∧ (m.posIdx q).toNat < m.nodes.length ∧ 0 ≤ m.posIdx p ∧
          (m.posIdx p).toNat = (m.posIdx q).toNat
      then some x else m.get_node p := by
  by_cases hq : 0 ≤ m.posIdx q
  · have hnodes : (m.set_node q x).nodes = m.nodes.set (m.posIdx q).toNat (some x) := by
      unfold NodeMap.set_node
      rw [if_pos hq]
    by_cases hp : 0 ≤ m.posIdx p
    · rw [get_node_join _ _ (by rw [set_node_posIdx]; exact hp)]
      rw [set_node_posIdx, hnodes]
      by_cases heq : (m.posIdx p).toNat = (m.posIdx q).toNat
      · rw [heq]
        by_cases hlt : (m.posIdx q).toNat < m.nodes.length
        · rw [List.get?_set_eq_of_lt _ hlt]
          rw [if_pos ⟨hq, hlt, hp, rfl⟩]
          rfl
        · rw [List.set_eq_of_length_le (by omega)]
          rw [if_neg (by tauto)]
          rw [get_node_join _ _ hp, heq]
      · rw [List.get?_set_ne _ _ (by omega)]
        rw [if_neg (by tauto)]
        rw [get_node_join _ _ hp]
    · rw [if_neg (by tauto)]
      unfold NodeMap.get_node
      rw [set_node_posIdx]
      rw [if_neg hp, if_neg hp]
  · have hm : m.set_node q x = m := by
      unfold NodeMap.set_node
      rw [if_neg hq]
    rw [hm, if_neg (by tauto)]

/-- `getD` through `get?`, specialised to cells. -/
theorem getD_get? (l : List (Option Node)) (i : Nat) :
    l.getD i none = (l.get? i).getD none := by
  rw [List.getD_eq_getElem?_getD, List.get?_eq_getElem?]

/-- The effect of `set_node` on raw cells. -/
theorem getD_set_node (m : NodeMap) (q : Pos) (x : Node) (i : Nat) :
    (m.set_node q x).nodes.getD i none =
      if 0 ≤ m.posIdx q ∧ (m.posIdx q).toNat = i ∧ i < m.nodes.length
      then some x else m.nodes.getD i none := by
  by_cases hq : 0 ≤ m.posIdx q
  · have hnodes : (m.set_node q x).nodes = m.nodes.set (m.posIdx q).toNat (some x) := by
      unfold NodeMap.set_node
      rw [if_pos hq]
    rw [hnodes]
    by_cases heq : (m.posIdx q).toNat = i
    · subst heq
      by_cases hlt : (m.posIdx q).toNat < m.nodes.length
      · rw [if_pos ⟨hq, rfl, hlt⟩]
        rw [getD_get?, List.get?_set_eq_of_lt _ hlt]
        rfl
      · rw [List.set_eq_of_length_le (by omega), if_neg (by tauto)]
    · rw [if_neg (by tauto)]
      rw [getD_get?, getD_get?, List.get?_set_ne _ _ heq]
  · have hm : m.set_node q x = m := by
      unfold NodeMap.set_node
      rw [if_neg hq]
    rw [hm, if_neg (by tauto)]

theorem posIdx_nonneg (m : NodeMap) (p : Pos) (hw : 0 ≤ m.width) (hin : m.inBoundsPos p) :
    0 ≤ m.posIdx p := by
  obtain ⟨hr0, hrh, hc0, hcw⟩ := hin
  have h1 : 0 ≤ p.row * m.width := mul_nonneg hr0 hw
  unfold NodeMap.posIdx
  omega

theorem posIdx_range (m : NodeMap) (p : Pos) (hWF : m.WF) (hin : m.inBoundsPos p) :
    0 ≤ m.posIdx p ∧ m.posIdx p < m.width * m.height ∧
    (m.posIdx p).toNat < m.nodes.length := by
  obtain ⟨hw, hh, hlen⟩ := hWF
  obtain ⟨hr0, hrh, hc0, hcw⟩ := hin
  have h0 : 0 ≤ m.posIdx p := posIdx_nonneg m p hw ⟨hr0, hrh, hc0, hcw⟩
  have h1 : p.row ≤ m.height - 1 := by omega
  have h2 : p.row * m.width ≤ (m.height - 1) * m.width :=
    mul_le_mul_of_nonneg_right h1 hw
  have h3 : (m.height - 1) * m.width = m.height * m.width - m.width := by ring
  have h4 : m.height * m.width = m.width * m.height := mul_comm _ _
  have h5 : m.posIdx p < m.width * m.height := by
    unfold NodeMap.posIdx at *
    omega
  exact ⟨h0, h5, by omega⟩

theorem posIdx_inj (m : NodeMap) (p q : Pos) (hp : m.inBoundsPos p) (hq : m.inBoundsPos q)
    (h : m.posIdx p = m.posIdx q) : p = q := by
  obtain ⟨hr0, hrh, hc0, hcw⟩ := hp
  obtain ⟨hr0q, hrhq, hc0q, hcwq⟩ := hq
  have hw : 0 < m.width := by omega
  unfold NodeMap.posIdx at h
  have hrow : p.row = q.row := by
    by_contra hne
    rcases lt_or_gt_of_ne hne with hlt | hgt
    · have : p.row + 1 ≤ q.row := hlt
      have h2 : (p.row + 1) * m.width ≤ q.row * m.width :=
        mul_le_mul_of_nonneg_right this (le_of_lt hw)
      have h3 : (p.row + 1) * m.width = p.row * m.width + m.width := by ring
      omega
    · have : q.row + 1 ≤ p.row := hgt
      have h2 : (q.row + 1) * m.width ≤ p.row * m.width :=
        mul_le_mul_of_nonneg_right this (le_of_lt hw)
      have h3 : (q.row + 1) * m.width = q.row * m.width + m.width := by ring
      omega
  have hcol : p.col = q.col := by
    rw [hrow] at h
    omega
  cases p
  cases q
  simp_all

theorem get_node_set_same (m : NodeMap) (p : Pos) (x : Node) (hWF : m.WF)
    (hin : m.inBoundsPos p) : (m.set_node p x).get_node p = some x := by
  obtain ⟨h0, _, hlt⟩ := posIdx_range m p hWF hin
  rw [get_node_set]
  rw [if_pos ⟨h0, hlt, h0, rfl⟩]




theorem preservesOcc_rooms (m m' : NodeMap) (h : PreservesOcc m m') : PreservesRooms m m' := by
  intro p hp
  rw [h p hp]
  exact hp

theorem preservesOcc_keys (m m' : NodeMap) (h : PreservesOcc m m') : PreservesKeys m m' := by
  intro p l hp
  have hsome : (m.get_node p).isSome = true := by
    unfold NodeMap.keyAt at hp
    rcases hx : m.get_node p with _ | n
    · rw [hx] at hp
      cases hp
    · rfl
  unfold NodeMap.keyAt at *
  rw [h p hsome]
  exact hp

theorem preservesOcc_trans (m1 m2 m3 : NodeMap)
    (h1 : PreservesOcc m1 m2) (h2 : PreservesOcc m2 m3) : PreservesOcc m1 m3 := by
  intro p hp
  have h12 := h1 p hp
  have hsome2 : (m2.get_node p).isSome = true := by rw [h12]; exact hp
  rw [h2 p hsome2, h12]

theorem preservesKeys_trans (m1 m2 m3 : NodeMap)
    (h1 : PreservesKeys m1 m2) (h2 : PreservesKeys m2 m3) : PreservesKeys m1 m3 :=
  fun p l hp => h2 p l (h1 p l hp)

theorem get_node_isSome_set (m : NodeMap) (p q : Pos) (x : Node)
    (h : (m.get_node p).isSome = true) : ((m.set_node q x).get_node p).isSome = true := by
  rw [get_node_set]
  split
  · rfl
  · exact h

theorem get_node_isSome_getD (m : NodeMap) (p : Pos) (h : (m.get_node p).isSome = true) :
    0 ≤ m.posIdx p ∧ (m.posIdx p).toNat < m.nodes.length ∧
    (m.nodes.getD (m.posIdx p).toNat none).isSome = true := by
  unfold NodeMap.get_node at h
  by_cases h0 : 0 ≤ m.posIdx p
  · rw [if_pos h0] at h
    rcases hx : m.nodes.get? (m.posIdx p).toNat with _ | o
    · rw [hx] at h
      cases h
    · rcases o with _ | n
      · rw [hx] at h
        cases h
      · obtain ⟨hlt, _⟩ := List.get?_eq_some.mp hx
        refine ⟨h0, hlt, ?_⟩
        rw [getD_get?, hx]
        rfl
  · rw [if_neg h0] at h
    cases h

/-- On an invariant-satisfying state, an in-bounds position outside the
placement list has an empty cell. -/
theorem occ_empty (s : GeneratorState) (hinv : StateInv s) (q : Pos)
    (hin : s.node_map.inBoundsPos q) (hnot : q ∉ s.pos_list) :
    s.node_map.get_node q = none := by
  rcases hg : s.node_map.get_node q with _ | n
  · rfl
  · exfalso
    have hsome : (s.node_map.get_node q).isSome = true := by rw [hg]; rfl
    obtain ⟨h0, hlt, hocc⟩ := get_node_isSome_getD _ _ hsome
    obtain ⟨q', hq'mem, hq'idx⟩ := hinv.2.2.2.2.1 (s.node_map.posIdx q).toNat hlt hocc
    have heq : s.node_map.posIdx q' = s.node_map.posIdx q := by omega
    have hqq := posIdx_inj _ _ _ (hinv.2.1 q' hq'mem) hin heq
    exact hnot (hqq ▸ hq'mem)

/-- `StateInv` only depends on the room map and the placement list. -/
theorem StateInv_congr (s t : GeneratorState) (hm : t.node_map = s.node_map)
    (hl : t.pos_list = s.pos_list) (h : StateInv s) : StateInv t := by
  unfold StateInv at *
  rw [hm, hl]
  exact h



@[simp] theorem mk_prev_state (po : Option GeneratorState) (m : NodeMap) (pl : List Pos)
    (a l : Nat) : (GeneratorState.mk po m pl a l).prev_state = po := rfl

@[simp] theorem mk_node_map (po : Option GeneratorState) (m : NodeMap) (pl : List Pos)
    (a l : Nat) : (GeneratorState.mk po m pl a l).node_map = m := rfl

@[simp] theorem mk_pos_list (po : Option GeneratorState) (m : NodeMap) (pl : List Pos)
    (a l : Nat) : (GeneratorState.mk po m pl a l).pos_list = pl := rfl

@[simp] theorem mk_amount (po : Option GeneratorState) (m : NodeMap) (pl : List Pos)
    (a l : Nat) : (GeneratorState.mk po m pl a l).amount = a := rfl

@[simp] theorem mk_layer (po : Option GeneratorState) (m : NodeMap) (pl : List Pos)
    (a l : Nat) : (GeneratorState.mk po m pl a l).layer = l := rfl

/-- Placing a fresh in-bounds room preserves the invariant, whatever the new
snapshot's link, amount and layer fields are. -/
theorem place_fresh_inv (s : GeneratorState) (hinv : StateInv s) (p : Pos) (lay : Nat)
    (hin : s.node_map.inBoundsPos p) (hnot : p ∉ s.pos_list)
    (po : Option GeneratorState) (a l2 : Nat) :
    StateInv (.mk po (s.node_map.set_node p (Node.with_layer lay)) (s.pos_list ++ [p]) a l2) ∧
    PreservesOcc s.node_map (s.node_map.set_node p (Node.with_layer lay)) := by
  obtain ⟨hWF, hbounds, hnodup, hsome, hocc, hconns⟩ := hinv
  have hempty : s.node_map.get_node p = none :=
    occ_empty s ⟨hWF, hbounds, hnodup, hsome, hocc, hconns⟩ p hin hnot
  have hOcc : PreservesOcc s.node_map (s.node_map.set_node p (Node.with_layer lay)) := by
    intro q hq
    rw [get_node_set]
    split
    · rename_i hcond
      obtain ⟨hp0, hplt, hq0, hqp⟩ := hcond
      exfalso
      have hgn : s.node_map.get_node q = s.node_map.get_node p := by
        rw [get_node_join _ _ hq0, get_node_join _ _ hp0, hqp]
      rw [hgn, hempty] at hq
      cases hq
    · rfl
  refine ⟨⟨?_, ?_, ?_, ?_, ?_, ?_⟩, hOcc⟩
  · exact set_node_WF _ _ _ hWF
  · simp only [mk_node_map, mk_pos_list]
    intro q hq
    rcases List.mem_append.mp hq with hq1 | hq2
    · exact (set_node_inBounds _ _ _ _).mpr (hbounds q hq1)
    · have hqp : q = p := by simpa using hq2
      subst hqp
      exact (set_node_inBounds _ _ _ _).mpr hin
  · simp only [mk_pos_list]
    rw [List.nodup_append]
    refine ⟨hnodup, List.nodup_singleton p, ?_⟩
    intro a2 ha hb
    have hap : a2 = p := by simpa using hb
    subst hap
    exact hnot ha
  · simp only [mk_node_map, mk_pos_list]
    intro q hq
    rcases List.mem_append.mp hq with hq1 | hq2
    · rw [hOcc q (hsome q hq1)]
      exact hsome q hq1
    · have hqp : q = p := by simpa using hq2
      subst hqp
      rw [get_node_set_same _ _ _ hWF hin]
      rfl
  · simp only [mk_node_map, mk_pos_list]
    intro i hi hisome
    rw [set_node_length] at hi
    rw [getD_set_node] at hisome
    by_cases hcell : 0 ≤ s.node_map.posIdx p ∧ (s.node_map.posIdx p).toNat = i ∧
        i < s.node_map.nodes.length
    · refine ⟨p, by simp, ?_⟩
      rw [set_node_posIdx]
      omega
    · rw [if_neg hcell] at hisome
      obtain ⟨q', hq'mem, hq'idx⟩ := hocc i hi hisome
      refine ⟨q', by simp [hq'mem], ?_⟩
      rw [set_node_posIdx]
      exact hq'idx
  · simp only [mk_node_map]
    intro c hc
    rw [set_node_connections] at hc
    obtain ⟨h1, h2⟩ := hconns c hc
    exact ⟨get_node_isSome_set _ _ _ _ h1, get_node_isSome_set _ _ _ _ h2⟩



theorem getD_mem {α : Type} [Inhabited α] (l : List α) (i : Nat) (d : α) (h : i < l.length) :
    l.getD i d ∈ l := by
  rw [List.getD_eq_getElem?_getD, List.getElem?_eq_getElem h]
  exact List.getElem_mem h

theorem mem_available_spaces_with_skip (s : GeneratorState) (k : Nat) (p : Pos)
    (h : p ∈ s.available_spaces_with_skip k) :
    s.node_map.inBoundsPos p ∧ p ∉ s.pos_list := by
  unfold GeneratorState.available_spaces_with_skip at h
  simp [List.mem_dedup, List.mem_filter, List.mem_flatMap, List.mem_filterMap,
    in_range_eq_some] at h
  obtain ⟨⟨q, hq, d, hd, hbounds, heq⟩, hnot⟩ := h
  subst heq
  refine ⟨⟨hbounds.1, by omega, hbounds.2.2.1, by omega⟩, hnot⟩

theorem mem_available_spaces (s : GeneratorState) (p : Pos)
    (h : p ∈ s.available_spaces) :
    s.node_map.inBoundsPos p ∧ p ∉ s.pos_list := by
  unfold GeneratorState.available_spaces at h
  cases hp : s.prev_state with
  | none =>
    rw [hp] at h
    cases h
  | some prev =>
    rw [hp] at h
    exact mem_available_spaces_with_skip s _ p h

theorem generate_node_master (s : GeneratorState) (r : Rng) (s' : GeneratorState) (r' : Rng)
    (hinv : StateInv s) (h : s.generate_node r = (.ok s', r')) :
    StateInv s' ∧ s'.prev_state = s.prev_state ∧ s'.layer = s.layer ∧ s'.amount = s.amount ∧
    s'.node_map.connections = s.node_map.connections ∧
    (∀ q ∈ s.pos_list, q ∈ s'.pos_list) ∧
    PreservesOcc s.node_map s'.node_map := by
  unfold GeneratorState.generate_node at h
  by_cases hlen : s.available_spaces.length = 0
  · rw [if_pos hlen] at h
    cases h
  · rw [if_neg hlen] at h
    have hi : (genRangeNat 0 s.available_spaces.length r).1 < s.available_spaces.length := by
      unfold genRangeNat
      simp only [Nat.zero_add]
      exact Nat.mod_lt _ (Nat.pos_of_ne_zero hlen)
    set p := s.available_spaces.getD (genRangeNat 0 s.available_spaces.length r).1 default
      with hpdef
    have hpmem : p ∈ s.available_spaces := getD_mem _ _ _ hi
    obtain ⟨hin, hnot⟩ := mem_available_spaces s p hpmem
    rcases hgr : genRangeNat 0 s.available_spaces.length r with ⟨i, rr⟩
    rw [hgr] at h
    simp only [Prod.mk.injEq] at h
    obtain ⟨h1, h2⟩ := h
    have hs' : s' = .mk s.prev_state
        (s.node_map.set_node p (Node.with_layer s.layer)) (s.pos_list ++ [p]) s.amount
        s.layer := by
      rw [hpdef, hgr]
      exact (Except.ok.inj h1).symm
    subst hs'
    obtain ⟨hInv, hOcc⟩ :=
      place_fresh_inv s hinv p s.layer hin hnot s.prev_state s.amount s.layer
    refine ⟨hInv, rfl, rfl, rfl, ?_, ?_, hOcc⟩
    · simp only [mk_node_map]
      exact set_node_connections _ _ _
    · intro q hq
      simp only [mk_pos_list]
      exact List.mem_append.mpr (Or.inl hq)

theorem genNodes_master (count : Nat) :
    ∀ (s : GeneratorState) (r : Rng) (s' : GeneratorState) (r' : Rng), StateInv s →
      genNodes s count r = (.ok s', r') →
      StateInv s' ∧ s'.prev_state = s.prev_state ∧ s'.layer = s.layer ∧
      s'.amount = s.amount ∧ s'.node_map.connections = s.node_map.connections ∧
      (∀ q ∈ s.pos_list, q ∈ s'.pos_list) ∧
      PreservesOcc s.node_map s'.node_map := by
  induction count with
  | zero =>
    intro s r s' r' hinv h
    simp only [genNodes] at h
    cases h
    exact ⟨hinv, rfl, rfl, rfl, rfl, fun q hq => hq, fun p _ => rfl⟩
  | succ n ih =>
    intro s r s' r' hinv h
    simp only [genNodes] at h
    rcases hg : s.generate_node r with ⟨res, r1⟩
    rw [hg] at h
    cases res with
    | ok s1 =>
      obtain ⟨hinv1, hprev1, hlay1, hamt1, hconn1, hsub1, hocc1⟩ :=
        generate_node_master s r s1 r1 hinv hg
      obtain ⟨hinv2, hprev2, hlay2, hamt2, hconn2, hsub2, hocc2⟩ :=
        ih s1 r1 s' r' hinv1 h
      refine ⟨hinv2, by rw [hprev2, hprev1], by rw [hlay2, hlay1],
        by rw [hamt2, hamt1], by rw [hconn2, hconn1],
        fun q hq => hsub2 q (hsub1 q hq), preservesOcc_trans _ _ _ hocc1 hocc2⟩
    | error e =>
      cases h




theorem foldl_add_connection_eq (l : List Connection) (m : NodeMap) :
    l.foldl NodeMap.add_connection m = { m with connections := m.connections ++ l } := by
  induction l generalizing m with
  | nil => simp
  | cons c cs ih =>
    simp only [List.foldl_cons]
    rw [ih]
    unfold NodeMap.add_connection
    simp

theorem stage_fold (mref : NodeMap) (f : NodeMap → Pos → List Connection) (L : List Pos) :
    ∀ m0 : NodeMap, m0.nodes = mref.nodes → m0.width = mref.width → m0.height = mref.height →
    (∀ (mm : NodeMap) (pos : Pos) (c : Connection), pos ∈ L → c ∈ f mm pos →
      endpointsOk mref c) →
    (∀ c ∈ m0.connections, c ∈ mref.connections ∨ endpointsOk mref c) →
    ((L.foldl (fun mm pos => (f mm pos).foldl NodeMap.add_connection mm) m0).nodes =
        mref.nodes ∧
      (L.foldl (fun mm pos => (f mm pos).foldl NodeMap.add_connection mm) m0).width =
        mref.width ∧
      (L.foldl (fun mm pos => (f mm pos).foldl NodeMap.add_connection mm) m0).height =
        mref.height ∧
      ∀ c ∈ (L.foldl (fun mm pos => (f mm pos).foldl NodeMap.add_connection mm)
          m0).connections, c ∈ mref.connections ∨ endpointsOk mref c) := by
  induction L with
  | nil =>
    intro m0 hn hw hh hf hc
    exact ⟨hn, hw, hh, hc⟩
  | cons pos L' ih =>
    intro m0 hn hw hh hf hc
    simp only [List.foldl_cons]
    rw [foldl_add_connection_eq]
    apply ih
    · exact hn
    · exact hw
    · exact hh
    · intro mm pos2 c hpos2 hcm
      exact hf mm pos2 c (List.mem_cons_of_mem _ hpos2) hcm
    · intro c hcm
      rcases List.mem_append.mp hcm with hold | hnew
      · exact hc c hold
      · exact Or.inr (hf m0 pos c (List.mem_cons_self _ _) hnew)

/-- Rebuild the invariant for a state whose map has the same rooms but new
connections, all of which resolve. -/
theorem StateInv_transport (s : GeneratorState) (po : Option GeneratorState) (m' : NodeMap)
    (a l : Nat) (hinv : StateInv s)
    (hn : m'.nodes = s.node_map.nodes) (hw : m'.width = s.node_map.width)
    (hh : m'.height = s.node_map.height)
    (hc : ∀ c ∈ m'.connections,
      (m'.get_node c.line.p1).isSome = true ∧ (m'.get_node c.line.p2).isSome = true) :
    StateInv (.mk po m' s.pos_list a l) := by
  obtain ⟨⟨hW1, hW2, hW3⟩, hbounds, hnodup, hsome, hocc, _⟩ := hinv
  refine ⟨⟨?_, ?_, ?_⟩, ?_, ?_, ?_, ?_, ?_⟩
  · simp only [mk_node_map]
    rw [hw]
    exact hW1
  · simp only [mk_node_map]
    rw [hh]
    exact hW2
  · simp only [mk_node_map]
    rw [hn, hw, hh]
    exact hW3
  · simp only [mk_node_map, mk_pos_list]
    intro q hq
    have := hbounds q hq
    unfold NodeMap.inBoundsPos at *
    rw [hw, hh]
    exact this
  · simp only [mk_pos_list]
    exact hnodup
  · simp only [mk_node_map, mk_pos_list]
    intro q hq
    rw [get_node_congr s.node_map m' q hn hw]
    exact hsome q hq
  · simp only [mk_node_map, mk_pos_list]
    intro i hi hcell
    rw [hn] at hi hcell
    obtain ⟨q', hq'mem, hq'idx⟩ := hocc i hi hcell
    refine ⟨q', hq'mem, ?_⟩
    unfold NodeMap.posIdx at *
    rw [hw]
    exact hq'idx
  · simp only [mk_node_map]
    exact hc


set_option pp.maxSteps 10000 in
theorem generate_connections_master (s prev : GeneratorState) (hprev : s.prev_state = some prev)
    (hsub : ∀ q ∈ prev.pos_list, q ∈ s.pos_list) (hinv : StateInv s) :
    StateInv s.generate_connections ∧
    s.generate_connections.node_map.nodes = s.node_map.nodes ∧
    s.generate_connections.node_map.width = s.node_map.width ∧
    s.generate_connections.node_map.height = s.node_map.height ∧
    s.generate_connections.pos_list = s.pos_list ∧ s.generate_connections.amount = s.amount ∧
    s.generate_connections.layer = s.layer ∧ s.generate_connections.prev_state = s.prev_state ∧
    PreservesOcc s.node_map s.generate_connections.node_map := by
  have hdropW : ∀ q ∈ s.pos_list.drop prev.amount, q ∈ s.pos_list :=
    fun q hq => List.drop_subset _ _ hq
  have hdropC : ∀ q ∈ s.pos_list.drop prev.pos_list.length, q ∈ s.pos_list :=
    fun q hq => List.drop_subset _ _ hq
  have hdropP : ∀ q ∈ prev.pos_list.drop (prev.pos_list.length - prev.amount),
      q ∈ s.pos_list := fun q hq => hsub q (List.drop_subset _ _ hq)
  have hsomeL : ∀ q ∈ s.pos_list, (s.node_map.get_node q).isSome = true :=
    hinv.2.2.2.1
  have S1 := stage_fold s.node_map
    (fun _ pos =>
      ((DIRECTIONS.map (fun offset => pos + offset)).filter
          (fun p => (prev.pos_list.drop (prev.pos_list.length - prev.amount)).contains p)).map
        (fun other_pos => Connection.mk (Line.mk other_pos pos)
          (match prev.prev_state with
            | some _ => ConnectState.Locked
            | none => ConnectState.Open)))
    (s.pos_list.drop prev.amount) s.node_map rfl rfl rfl
    (by
      intro mm pos c hpos hc
      simp only [List.mem_map, List.mem_filter] at hc
      obtain ⟨other, ⟨hdir, hcont⟩, rfl⟩ := hc
      have hmem : other ∈ prev.pos_list.drop (prev.pos_list.length - prev.amount) := by
        simpa using hcont
      exact ⟨hsomeL _ (hdropP other hmem), hsomeL _ (hdropW pos hpos)⟩)
    (fun c hc => Or.inl hc)
  have S2 := stage_fold s.node_map
    (fun _ pos =>
      (((DIRECTIONS.map (fun offset => pos + offset)).filter
          (fun p => (s.pos_list.drop prev.pos_list.length).contains p)).map
        (fun other_pos => Connection.mk (Line.mk other_pos pos) ConnectState.Open)).dedup)
    (s.pos_list.drop prev.amount) _ S1.1 S1.2.1 S1.2.2.1
    (by
      intro mm pos c hpos hc
      simp only [List.mem_dedup, List.mem_map, List.mem_filter] at hc
      obtain ⟨other, ⟨hdir, hcont⟩, rfl⟩ := hc
      have hmem : other ∈ s.pos_list.drop prev.pos_list.length := by
        simpa using hcont
      exact ⟨hsomeL _ (hdropC other hmem), hsomeL _ (hdropW pos hpos)⟩)
    S1.2.2.2
  have S3 := stage_fold s.node_map
    (fun mm pos =>
      (((((DIRECTIONS.map (fun offset => pos + offset)).filter
          (fun p => s.pos_list.contains p)).map
        (fun other_pos => Line.mk other_pos pos)).filter
          (fun line => (mm.get_connection line).isNone)).map
        (fun line => Connection.mk line ConnectState.Shortcut)).dedup)
    (s.pos_list.drop prev.amount) _ S2.1 S2.2.1 S2.2.2.1
    (by
      intro mm pos c hpos hc
      simp only [List.mem_dedup, List.mem_map, List.mem_filter] at hc
      obtain ⟨line, ⟨⟨other, ⟨hdir, hcont⟩, rfl⟩, hnone⟩, rfl⟩ := hc
      have hmem : other ∈ s.pos_list := by simpa using hcont
      exact ⟨hsomeL _ hmem, hsomeL _ (hdropW pos hpos)⟩)
    S2.2.2.2
  unfold GeneratorState.generate_connections
  rw [hprev]
  simp only [mk_node_map, mk_pos_list, mk_amount, mk_layer, mk_prev_state]
  refine ⟨?_, S3.1, S3.2.1, S3.2.2.1, trivial, trivial, trivial, trivial, ?_⟩
  · refine StateInv_transport s (some prev) _ s.amount s.layer hinv S3.1 S3.2.1 S3.2.2.1 ?_
    intro c hc
    rcases S3.2.2.2 c hc with hold | hok
    · obtain ⟨h1, h2⟩ := hinv.2.2.2.2.2 c hold
      rw [get_node_congr s.node_map _ _ S3.1 S3.2.1]
      rw [get_node_congr s.node_map _ _ S3.1 S3.2.1]
      exact ⟨h1, h2⟩
    · obtain ⟨h1, h2⟩ := hok
      rw [get_node_congr s.node_map _ _ S3.1 S3.2.1]
      rw [get_node_congr s.node_map _ _ S3.1 S3.2.1]
      exact ⟨h1, h2⟩
  · intro p hp
    exact get_node_congr s.node_map _ p S3.1 S3.2.1


theorem keyAt_of_get_node (m : NodeMap) (p : Pos) (x : Node) (h : m.get_node p = some x) :
    m.keyAt p = x.key := by
  unfold NodeMap.keyAt
  rw [h]
  rfl

theorem keyStep_master (s : GeneratorState) (pos : Pos) (hinv : StateInv s) :
    StateInv (keyStep s pos) ∧ (keyStep s pos).prev_state = s.prev_state ∧
    (keyStep s pos).pos_list = s.pos_list ∧ (keyStep s pos).amount = s.amount ∧
    (keyStep s pos).layer = s.layer ∧
    (keyStep s pos).node_map.connections = s.node_map.connections ∧
    ((s.node_map.keyAt pos = none ∨ s.node_map.keyAt pos = some s.layer) →
      PreservesKeys s.node_map (keyStep s pos).node_map) ∧
    (∀ q, (keyStep s pos).node_map.keyAt q = s.node_map.keyAt q ∨
      (keyStep s pos).node_map.keyAt q = some s.layer) := by
  unfold keyStep
  rcases hg : s.node_map.get_node pos with _ | n
  · exact ⟨hinv, rfl, rfl, rfl, rfl, rfl, fun _ p l h => h, fun q => Or.inl rfl⟩
  · have hsome : (s.node_map.get_node pos).isSome = true := by rw [hg]; rfl
    obtain ⟨hp0, hplt, hcell⟩ := get_node_isSome_getD _ _ hsome
    have hcellkey : ∀ p : Pos, 0 ≤ s.node_map.posIdx p →
        (s.node_map.posIdx p).toNat = (s.node_map.posIdx pos).toNat →
        s.node_map.get_node p = s.node_map.get_node pos := by
      intro p h0 heq
      rw [get_node_join _ _ h0, get_node_join _ _ hp0, heq]
    have hget : ∀ p : Pos,
        (s.node_map.set_node pos ⟨n.layer, some s.layer⟩).get_node p =
          (if 0 ≤ s.node_map.posIdx pos ∧
              (s.node_map.posIdx pos).toNat < s.node_map.nodes.length ∧
              0 ≤ s.node_map.posIdx p ∧
              (s.node_map.posIdx p).toNat = (s.node_map.posIdx pos).toNat
            then some ⟨n.layer, some s.layer⟩ else s.node_map.get_node p) :=
      fun p => get_node_set s.node_map p pos _
    obtain ⟨hWF, hbounds, hnodup, hsomeI, hoccI, hconnsI⟩ := hinv
    refine ⟨⟨?_, ?_, ?_, ?_, ?_, ?_⟩, rfl, rfl, rfl, rfl, ?_, ?_, ?_⟩
    · exact set_node_WF _ _ _ hWF
    · simp only [mk_node_map, mk_pos_list]
      intro q hq
      exact (set_node_inBounds _ _ _ _).mpr (hbounds q hq)
    · simp only [mk_pos_list]
      exact hnodup
    · simp only [mk_node_map, mk_pos_list]
      intro q hq
      exact get_node_isSome_set _ _ _ _ (hsomeI q hq)
    · simp only [mk_node_map, mk_pos_list]
      intro i hi hisome
      rw [set_node_length] at hi
      rw [getD_set_node] at hisome
      by_cases hc : 0 ≤ s.node_map.posIdx pos ∧ (s.node_map.posIdx pos).toNat = i ∧
          i < s.node_map.nodes.length
      · obtain ⟨q', hq'mem, hq'idx⟩ := hoccI i hi (by
          obtain ⟨_, h2, _⟩ := hc
          rw [← h2]
          exact hcell)
        refine ⟨q', hq'mem, ?_⟩
        rw [set_node_posIdx]
        exact hq'idx
      · rw [if_neg hc] at hisome
        obtain ⟨q', hq'mem, hq'idx⟩ := hoccI i hi hisome
        refine ⟨q', hq'mem, ?_⟩
        rw [set_node_posIdx]
        exact hq'idx
    · simp only [mk_node_map]
      intro c hc
      rw [set_node_connections] at hc
      obtain ⟨h1, h2⟩ := hconnsI c hc
      exact ⟨get_node_isSome_set _ _ _ _ h1, get_node_isSome_set _ _ _ _ h2⟩
    · simp only [mk_node_map]
      exact set_node_connections _ _ _
    · intro hkey p l hp
      simp only [mk_node_map]
      unfold NodeMap.keyAt at hp ⊢
      rw [hget p]
      split
      · rename_i hcond
        obtain ⟨_, _, hq0, hqp⟩ := hcond
        rw [hcellkey p hq0 hqp, hg] at hp
        rcases hkey with hnone | hlay
        · rw [keyAt_of_get_node _ _ _ hg] at hnone
          simp only [Option.bind] at hp
          rw [hnone] at hp
          cases hp
        · rw [keyAt_of_get_node _ _ _ hg] at hlay
          simp only [Option.bind] at hp
          rw [hlay] at hp
          cases hp
          rfl
      · exact hp
    · intro q
      simp only [mk_node_map]
      unfold NodeMap.keyAt
      rw [hget q]
      split
      · exact Or.inr rfl
      · exact Or.inl rfl



theorem foldl_keyStep_master (chosen : List Pos) :
    ∀ s : GeneratorState, StateInv s →
    (∀ pos ∈ chosen, s.node_map.keyAt pos = none ∨ s.node_map.keyAt pos = some s.layer) →
    StateInv (chosen.foldl keyStep s) ∧
    (chosen.foldl keyStep s).prev_state = s.prev_state ∧
    (chosen.foldl keyStep s).pos_list = s.pos_list ∧
    (chosen.foldl keyStep s).amount = s.amount ∧
    (chosen.foldl keyStep s).layer = s.layer ∧
    (chosen.foldl keyStep s).node_map.connections = s.node_map.connections ∧
    PreservesKeys s.node_map (chosen.foldl keyStep s).node_map := by
  induction chosen with
  | nil =>
    intro s hinv hkeys
    exact ⟨hinv, rfl, rfl, rfl, rfl, rfl, fun p l h => h⟩
  | cons pos ps ih =>
    intro s hinv hkeys
    simp only [List.foldl_cons]
    obtain ⟨hinv1, hprev1, hpos1, hamt1, hlay1, hconn1, hpres1, hall1⟩ :=
      keyStep_master s pos hinv
    obtain ⟨hinv2, hprev2, hpos2, hamt2, hlay2, hconn2, hpres2⟩ :=
      ih (keyStep s pos) hinv1 (by
        intro p hp
        rcases hall1 p with heq | hlay
        · rw [heq, hlay1]
          exact hkeys p (List.mem_cons_of_mem _ hp)
        · rw [hlay, hlay1]
          exact Or.inr rfl)
    refine ⟨hinv2, by rw [hprev2, hprev1], by rw [hpos2, hpos1], by rw [hamt2, hamt1],
      by rw [hlay2, hlay1], by rw [hconn2, hconn1],
      preservesKeys_trans _ _ _ (hpres1 (hkeys pos (List.mem_cons_self _ _))) hpres2⟩

theorem chooseMultiple_subset {α : Type} [Inhabited α] (k : Nat) :
    ∀ (l : List α) (r : Rng) (x : α), x ∈ (chooseMultiple l k r).1 → x ∈ l := by
  induction k with
  | zero =>
    intro l r x hx
    simp only [chooseMultiple] at hx
    cases hx
  | succ k' ih =>
    intro l r x hx
    cases l with
    | nil =>
      simp only [chooseMultiple] at hx
      cases hx
    | cons a l' =>
      simp only [chooseMultiple] at hx
      rcases hch : chooseMultiple ((a :: l').eraseIdx (r.next.1 % (a :: l').length)) k'
          r.next.2 with ⟨rest, r2⟩
      rw [hch] at hx
      rcases List.mem_cons.mp hx with hx1 | hx2
      · subst hx1
        apply getD_mem
        exact Nat.mod_lt _ (by simp)
      · have := ih _ _ _ (by rw [hch]; exact hx2)
        exact List.eraseIdx_subset _ _ this

theorem distributeKeys_master (parent s : GeneratorState) (r : Rng) (hinv : StateInv s)
    (hocc : PreservesOcc parent.node_map s.node_map) :
    StateInv (distributeKeys parent s r).1 ∧
    (distributeKeys parent s r).1.prev_state = s.prev_state ∧
    (distributeKeys parent s r).1.pos_list = s.pos_list ∧
    (distributeKeys parent s r).1.amount = s.amount ∧
    (distributeKeys parent s r).1.layer = s.layer ∧
    (distributeKeys parent s r).1.node_map.connections = s.node_map.connections ∧
    PreservesKeys s.node_map (distributeKeys parent s r).1.node_map := by
  unfold distributeKeys
  dsimp only
  rcases hch : chooseMultiple ((parent.pos_list.drop 1).filter (fun pos =>
      match parent.node_map.get_node pos with
      | some node => node.key.isNone
      | none => false))
    (((s.pos_list.drop parent.pos_list.length).map (fun pos =>
      ((parent.pos_list.drop (parent.pos_list.length - parent.amount)).filterMap
        (fun other_pos => s.node_map.get_connection (Line.mk pos other_pos))).length)).sum) r
    with ⟨chosen, r2⟩
  apply foldl_keyStep_master chosen s hinv
  intro pos hpos
  have hmem := chooseMultiple_subset _ _ _ pos (by rw [hch]; exact hpos)
  simp only [List.mem_filter] at hmem
  obtain ⟨hmemP, hpred⟩ := hmem
  left
  rcases hg : parent.node_map.get_node pos with _ | n
  · rw [hg] at hpred
    cases hpred
  · rw [hg] at hpred
    have hkeynone : n.key = none := by
      dsimp only at hpred
      exact Option.isNone_iff_eq_none.mp hpred
    have hsome : (parent.node_map.get_node pos).isSome = true := by rw [hg]; rfl
    rw [keyAt_of_get_node s.node_map pos n (by rw [hocc pos hsome]; exact hg)]
    exact hkeynone



theorem generate_next_state_master (s : GeneratorState) (r : Rng) (s' : GeneratorState)
    (r' : Rng) (hinv : StateInv s) (h : s.generate_next_state r = (.ok s', r')) :
    StateInv s' ∧ s'.prev_state = some s ∧ PreservesKeys s.node_map s'.node_map := by
  unfold GeneratorState.generate_next_state at h
  rcases hg : genNodes (.mk (some s) s.node_map s.pos_list (genRangeNat 4 8 r).1 (s.layer + 1))
      (genRangeNat 4 8 r).1 (genRangeNat 4 8 r).2 with ⟨res, r2⟩
  simp only [hg] at h
  cases res with
  | error e => cases h
  | ok next1 =>
    have hinv0 : StateInv (GeneratorState.mk (some s) s.node_map s.pos_list
        (genRangeNat 4 8 r).1 (s.layer + 1)) := StateInv_congr s _ rfl rfl hinv
    obtain ⟨hinv1, hprev1, hlay1, hamt1, hconn1, hsub1, hocc1⟩ :=
      genNodes_master _ _ _ _ _ hinv0 hg
    have hprev1' : next1.prev_state = some s := by rw [hprev1]; rfl
    have hsub1' : ∀ q ∈ s.pos_list, q ∈ next1.pos_list := by
      intro q hq
      exact hsub1 q (by simpa using hq)
    obtain ⟨hinv2, hn2, hw2, hh2, hpos2, hamt2, hlay2, hprev2, hocc2⟩ :=
      generate_connections_master next1 s hprev1' hsub1' hinv1
    have hoccA : PreservesOcc s.node_map next1.node_map := hocc1
    have hoccB : PreservesOcc s.node_map next1.generate_connections.node_map :=
      preservesOcc_trans _ _ _ hoccA hocc2
    by_cases hroot : s.prev_state.isNone
    · simp only [hroot, if_true] at h
      cases h
      exact ⟨hinv2, by rw [hprev2, hprev1'], preservesOcc_keys _ _ hoccB⟩
    · simp only [hroot, if_false, Bool.false_eq_true] at h
      cases h
      obtain ⟨hinv3, hprev3, hpos3, hamt3, hlay3, hconn3, hkeys3⟩ :=
        distributeKeys_master s next1.generate_connections r2 hinv2 hoccB
      refine ⟨hinv3, by rw [hprev3, hprev2, hprev1'], ?_⟩
      exact preservesKeys_trans _ _ _ (preservesOcc_keys _ _ hoccB) hkeys3

theorem chooseList_mem {α : Type} (l : List α) (r : Rng) (x : α)
    (h : (chooseList l r).1 = some x) : x ∈ l := by
  cases l with
  | nil => simp [chooseList] at h
  | cons a l' =>
    simp only [chooseList] at h
    exact List.get?_mem h

theorem add_connection_nodes (m : NodeMap) (c : Connection) :
    (m.add_connection c).nodes = m.nodes := rfl

theorem add_connection_width (m : NodeMap) (c : Connection) :
    (m.add_connection c).width = m.width := rfl

theorem add_connection_height (m : NodeMap) (c : Connection) :
    (m.add_connection c).height = m.height := rfl

theorem add_connection_connections (m : NodeMap) (c : Connection) :
    (m.add_connection c).connections = m.connections ++ [c] := rfl

/-- Appending a resolving connection preserves the invariant. -/
theorem add_conn_inv (po : Option GeneratorState) (m : NodeMap) (pl : List Pos) (a l : Nat)
    (hinv : StateInv (.mk po m pl a l)) (c : Connection)
    (h1 : (m.get_node c.line.p1).isSome = true) (h2 : (m.get_node c.line.p2).isSome = true) :
    StateInv (.mk po (m.add_connection c) pl a l) := by
  obtain ⟨hWF, hbounds, hnodup, hsome, hocc, hconns⟩ := hinv
  simp only [mk_node_map, mk_pos_list] at hWF hbounds hnodup hsome hocc hconns
  refine ⟨?_, ?_, ?_, ?_, ?_, ?_⟩
  · simp only [mk_node_map]
    exact hWF
  · simp only [mk_node_map, mk_pos_list]
    exact hbounds
  · simp only [mk_pos_list]
    exact hnodup
  · simp only [mk_node_map, mk_pos_list]
    intro q hq
    rw [add_connection_get_node]
    exact hsome q hq
  · simp only [mk_node_map, mk_pos_list]
    intro i hi hcell
    exact hocc i hi hcell
  · simp only [mk_node_map]
    intro c2 hc2
    rw [add_connection_connections] at hc2
    rcases List.mem_append.mp hc2 with hold | hnew
    · obtain ⟨hx, hy⟩ := hconns c2 hold
      exact ⟨hx, hy⟩
    · have hc2c : c2 = c := by simpa using hnew
      subst hc2c
      exact ⟨h1, h2⟩

/-- The final state preserves the invariant and all previously placed keys. -/
theorem generate_final_state_master (s : GeneratorState) (r : Rng) (f : GeneratorState)
    (r2 : Rng) (hinv : StateInv s) (h : s.generate_final_state r = some (f, r2)) :
    StateInv f ∧ PreservesKeys s.node_map f.node_map := by
  unfold GeneratorState.generate_final_state at h
  dsimp only [mk_prev_state, mk_node_map, mk_pos_list, mk_amount, mk_layer] at h
  rcases hc1 : chooseList ((GeneratorState.mk (some s) s.node_map s.pos_list s.amount
      (s.layer + 1)).available_spaces_with_skip 0) r with ⟨o1, r1⟩
  rw [hc1] at h
  cases o1 with
  | none => simp at h
  | some end_pos =>
    simp only at h
    obtain ⟨hin, hnot⟩ := mem_available_spaces_with_skip _ 0 end_pos
      (chooseList_mem _ r end_pos (by rw [hc1]))
    simp only [mk_node_map, mk_pos_list] at hin hnot
    obtain ⟨hinv1, hocc1⟩ := place_fresh_inv s hinv end_pos (s.layer + 1) hin hnot
      (some s) s.amount (s.layer + 1)
    rcases hc2 : chooseList ((DIRECTIONS.map (fun offset => end_pos + offset)).filter
        (fun pos => ((s.node_map.set_node end_pos
          (Node.with_layer (s.layer + 1))).get_node pos).isSome)) r1 with ⟨o2, rr2⟩
    rw [hc2] at h
    cases o2 with
    | none => simp at h
    | some other_pos =>
      simp only at h
      set m1 := s.node_map.set_node end_pos (Node.with_layer (s.layer + 1)) with hm1
      have hother : (m1.get_node other_pos).isSome = true := by
        have hmem := chooseList_mem _ r1 other_pos (by rw [hc2])
        exact (List.mem_filter.mp hmem).2
      have hend : (m1.get_node end_pos).isSome = true := by
        rw [hm1, get_node_set_same _ _ _ hinv.1 hin]
        rfl
      have hinv2 : StateInv (.mk (some s)
          (m1.add_connection ⟨Line.mk end_pos other_pos, ConnectState.Locked⟩)
          (s.pos_list ++ [end_pos]) s.amount (s.layer + 1)) :=
        add_conn_inv (some s) m1 (s.pos_list ++ [end_pos]) s.amount (s.layer + 1) hinv1
          ⟨Line.mk end_pos other_pos, ConnectState.Locked⟩ hend hother
      set m2 := m1.add_connection ⟨Line.mk end_pos other_pos, ConnectState.Locked⟩ with hm2
      have hocc2 : PreservesOcc s.node_map m2 := by
        intro p hp
        rw [hm2, add_connection_get_node]
        exact hocc1 p hp
      rcases hc3 : chooseList ((s.pos_list.drop (s.pos_list.length - s.amount)).filter
          (fun pos =>
            match s.node_map.get_node pos with
            | some node => node.key.isNone
            | none => false)) rr2 with ⟨o3, r3⟩
      rw [hc3] at h
      cases o3 with
      | none => simp at h
      | some key_pos =>
        simp only [Option.some.injEq, Prod.mk.injEq] at h
        obtain ⟨hf, -⟩ := h
        have hkeyless : m2.keyAt key_pos = none := by
          have hmem := chooseList_mem _ rr2 key_pos (by rw [hc3])
          obtain ⟨hmemk, hpredk⟩ := List.mem_filter.mp hmem
          rcases hgk : s.node_map.get_node key_pos with _ | n
          · rw [hgk] at hpredk
            cases hpredk
          · rw [hgk] at hpredk
            dsimp only at hpredk
            have hkn : n.key = none := Option.isNone_iff_eq_none.mp hpredk
            have hsomek : (s.node_map.get_node key_pos).isSome = true := by
              rw [hgk]
              rfl
            rw [keyAt_of_get_node m2 key_pos n (by rw [hocc2 key_pos hsomek]; exact hgk)]
            exact hkn
        obtain ⟨hinv3, _, _, _, _, _, hpres3, _⟩ :=
          keyStep_master (.mk (some s) m2 (s.pos_list ++ [end_pos]) s.amount
            (s.layer + 1)) key_pos hinv2
        rw [← hf]
        refine ⟨hinv3, ?_⟩
        refine preservesKeys_trans _ _ _ (preservesOcc_keys _ _ hocc2) ?_
        exact hpres3 (Or.inl hkeyless)



theorem ChainInv_head (s : GeneratorState) (h : ChainInv s) : StateInv s := by
  cases s with
  | mk po m pl a l =>
    cases po with
    | none =>
      unfold ChainInv at h
      exact h
    | some p =>
      unfold ChainInv at h
      exact h.1

theorem ChainInv_tail (s p : GeneratorState) (hp : s.prev_state = some p)
    (h : ChainInv s) : ChainInv p := by
  cases s with
  | mk po m pl a l =>
    have hpo : po = some p := hp
    subst hpo
    unfold ChainInv at h
    exact h.2

theorem ChainInv_cons (p : GeneratorState) (m : NodeMap) (pl : List Pos) (a l : Nat)
    (h1 : StateInv (.mk (some p) m pl a l)) (h2 : ChainInv p) :
    ChainInv (.mk (some p) m pl a l) := by
  unfold ChainInv
  exact ⟨h1, h2⟩

theorem getD_replicate_none (n i : Nat) :
    (List.replicate n (none : Option Node)).getD i none = none := by
  rw [getD_get?]
  rcases h : (List.replicate n (none : Option Node)).get? i with _ | o
  · rfl
  · have hmem := List.get?_mem h
    have ho := List.eq_of_mem_replicate hmem
    subst ho
    rfl

theorem with_size_WF (a b : Nat) : (NodeMap.with_size a b).WF := by
  unfold NodeMap.with_size NodeMap.WF
  refine ⟨by positivity, by positivity, ?_⟩
  simp only [List.length_replicate]
  rw [← Nat.cast_mul, Int.toNat_ofNat]

/-- The empty grid with an empty placement list satisfies the invariant. -/
theorem empty_state_inv (a b : Nat) :
    StateInv (.mk none (NodeMap.with_size a b) [] 1 0) := by
  refine ⟨with_size_WF a b, ?_, ?_, ?_, ?_, ?_⟩
  · simp only [mk_pos_list]
    intro q hq
    cases hq
  · simp only [mk_pos_list]
    exact List.nodup_nil
  · simp only [mk_pos_list]
    intro q hq
    cases hq
  · simp only [mk_node_map, mk_pos_list]
    intro i hi hcell
    exfalso
    unfold NodeMap.with_size at hcell
    rw [getD_replicate_none] at hcell
    cases hcell
  · simp only [mk_node_map]
    intro c hc
    cases hc

/-- Any root snapshot — one in-bounds start room on an empty grid — keeps
the chain invariant. -/
theorem root_state_inv (a b : Nat) (p : Pos)
    (hin : (NodeMap.with_size a b).inBoundsPos p) :
    ChainInv (.mk none ((NodeMap.with_size a b).set_node p Node.default) [p] 1 0) := by
  have hplace := place_fresh_inv (.mk none (NodeMap.with_size a b) [] 1 0)
    (empty_state_inv a b) p 0 hin (by intro hmem; cases hmem) none 1 0
  unfold ChainInv
  exact hplace.1

/-- The root snapshot of a run on a positive grid satisfies the chain
invariant. -/
theorem initialState_inv (w h : Int) (hw : 0 < w) (hh : 0 < h) (r : Rng) :
    ChainInv (initialState w h r).1 := by
  have hrow : (genRange 0 (NodeMap.with_size w.toNat h.toNat).height r).1 =
      Int.ofNat (r.next.1 % h.toNat) := by
    show (0 : Int) + Int.ofNat (r.next.1 % (((h.toNat : Nat) : Int) - 0).toNat) =
      Int.ofNat (r.next.1 % h.toNat)
    simp
  have hcol : ∀ rr : Rng, (genRange 0 (NodeMap.with_size w.toNat h.toNat).width rr).1 =
      Int.ofNat (rr.next.1 % w.toNat) := by
    intro rr
    show (0 : Int) + Int.ofNat (rr.next.1 % (((w.toNat : Nat) : Int) - 0).toNat) =
      Int.ofNat (rr.next.1 % w.toNat)
    simp
  have h1 : (initialState w h r).1 = .mk none
      ((NodeMap.with_size w.toNat h.toNat).set_node
        ⟨(genRange 0 (NodeMap.with_size w.toNat h.toNat).height r).1,
          (genRange 0 (NodeMap.with_size w.toNat h.toNat).width
            (genRange 0 (NodeMap.with_size w.toNat h.toNat).height r).2).1⟩
        Node.default)
      [⟨(genRange 0 (NodeMap.with_size w.toNat h.toNat).height r).1,
          (genRange 0 (NodeMap.with_size w.toNat h.toNat).width
            (genRange 0 (NodeMap.with_size w.toNat h.toNat).height r).2).1⟩] 1 0 := rfl
  rw [h1, hrow, hcol]
  apply root_state_inv
  have hrlt : r.next.1 % h.toNat < h.toNat := Nat.mod_lt _ (by omega)
  have hclt : (genRange 0 (NodeMap.with_size w.toNat h.toNat).height r).2.next.1 % w.toNat
      < w.toNat := Nat.mod_lt _ (by omega)
  refine ⟨?_, ?_, ?_, ?_⟩
  · show (0 : Int) ≤ Int.ofNat _
    exact Int.ofNat_nonneg _
  · show Int.ofNat (r.next.1 % h.toNat) < (NodeMap.with_size w.toNat h.toNat).height
    show Int.ofNat (r.next.1 % h.toNat) < ((h.toNat : Nat) : Int)
    exact Int.ofNat_lt.mpr hrlt
  · show (0 : Int) ≤ Int.ofNat _
    exact Int.ofNat_nonneg _
  · show Int.ofNat _ < (NodeMap.with_size w.toNat h.toNat).width
    show Int.ofNat ((genRange 0 (NodeMap.with_size w.toNat h.toNat).height r).2.next.1
      % w.toNat) < ((w.toNat : Nat) : Int)
    exact Int.ofNat_lt.mpr hclt



/-- Along the generation loop the chain invariant is maintained, so any
successful run ends with resolving connection endpoints. -/
theorem genLoopF_connections (fuel : Nat) :
    ∀ (layers : Nat) (s : GeneratorState) (retries : Int) (r : Rng) (m : NodeMap),
      ChainInv s → genLoopF fuel layers s retries r = .ok m →
      ∀ c ∈ m.connections,
        (m.get_node c.line.p1).isSome = true ∧ (m.get_node c.line.p2).isSome = true := by
  induction fuel with
  | zero =>
    intro layers s retries r m hch h
    cases h
  | succ fuel' ih =>
    intro layers s retries r m hch h
    simp only [genLoopF] at h
    by_cases hc : s.layer < layers ∧ 0 ≤ retries
    · rw [if_pos hc] at h
      rcases hstep : s.generate_next_state r with ⟨res, r'⟩
      rw [hstep] at h
      cases res with
      | ok s' =>
        have hsi : StateInv s := ChainInv_head s hch
        obtain ⟨hinv', hprev', hkeys'⟩ := generate_next_state_master s r s' r' hsi hstep
        have hch' : ChainInv s' := by
          cases s' with
          | mk po m' pl a l =>
            have hpo : po = some s := hprev'
            subst hpo
            exact ChainInv_cons s m' pl a l hinv' hch
        exact ih layers s' retries r' m hch' h
      | error e =>
        cases hp : s.prev_state with
        | some p =>
          rw [hp] at h
          exact ih layers p (retries - 1) r' m (ChainInv_tail s p hp hch) h
        | none =>
          rw [hp] at h
          cases h
    · rw [if_neg hc] at h
      by_cases hr : retries < 0
      · rw [if_pos hr] at h
        cases h
      · rw [if_neg hr] at h
        rcases hfin : s.generate_final_state r with _ | ⟨f, rf⟩
        · rw [hfin] at h
          cases h
        · rw [hfin] at h
          have hm : m = f.node_map := by
            cases h
            rfl
          subst hm
          obtain ⟨hinvf, _⟩ :=
            generate_final_state_master s r f rf (ChainInv_head s hch) hfin
          exact hinvf.2.2.2.2.2

/-- C2: every stored connection of a map returned by `generate` has both
edge endpoints resolving to existing rooms via `get_node` — no dangling
edges. -/
theorem generated_connections_resolve (w h : Int) (layers : Nat) (r : Rng) (m : NodeMap)
    (hgen : NodeMap.generate w h layers r = .ok m) :
    ∀ c ∈ m.connections,
      (m.get_node c.line.p1).isSome = true ∧ (m.get_node c.line.p2).isSome = true := by
  unfold NodeMap.generate at hgen
  by_cases hdim : w ≤ 0 ∨ h ≤ 0
  · rw [if_pos hdim] at hgen
    cases hgen
  · rw [if_neg hdim] at hgen
    rcases hinit : initialState w h r with ⟨s0, r2⟩
    rw [hinit] at hgen
    simp only at hgen
    unfold genLoop at hgen
    push_neg at hdim
    have hch : ChainInv s0 := by
      have hroot := initialState_inv w h (by omega) (by omega) r
      rw [hinit] at hroot
      exact hroot
    exact genLoopF_connections _ layers s0 RETRIES r2 m hch hgen

/-- Witness for C2: a concrete successful run on a 5 × 5 grid with one
layer; its first stored connection, the Open edge from (0,0) to (1,0),
resolves at both endpoints. -/
theorem generated_connections_resolve_witness :
    ((NodeMap.generate 5 5 1 (mkRng [])).resultMap.get_node ⟨0, 0⟩).isSome = true ∧
    ((NodeMap.generate 5 5 1 (mkRng [])).resultMap.get_node ⟨1, 0⟩).isSome = true :=
  generated_connections_resolve 5 5 1 (mkRng [])
    (NodeMap.generate 5 5 1 (mkRng [])).resultMap rfl
    ⟨Line.mk ⟨0, 0⟩ ⟨1, 0⟩, ConnectState.Open⟩ (by decide)

/-- C8: no room ever holds more than one key (the key payload is one
optional layer value), and once a key is assigned neither a later layer
advance nor the finalize step reassigns or removes it: both steps preserve
every existing key payload. -/
theorem keys_preserved :
    (∀ (s : GeneratorState) (r : Rng) (s' : GeneratorState) (r' : Rng), StateInv s →
      s.generate_next_state r = (.ok s', r') →
      ∀ (p : Pos) (l : Nat), s.node_map.keyAt p = some l → s'.node_map.keyAt p = some l) ∧
    (∀ (s : GeneratorState) (r : Rng) (f : GeneratorState) (r' : Rng), StateInv s →
      s.generate_final_state r = some (f, r') →
      ∀ (p : Pos) (l : Nat), s.node_map.keyAt p = some l → f.node_map.keyAt p = some l) := by
  constructor
  · intro s r s' r' hinv h p l hp
    exact (generate_next_state_master s r s' r' hinv h).2.2 p l hp
  · intro s r f r' hinv h p l hp
    exact (generate_final_state_master s r f r' hinv h).2 p l hp


/-- Witness for C8: in the concrete 6 × 6 zero-stream run, the state after
two advances holds a key for layer 2 at (0,1); the third advance and a
finalize step from there both keep it. -/
theorem keys_preserved_witness :
    (okState step3.1).node_map.keyAt ⟨0, 1⟩ = some 2 ∧
    (finalOf ((okState step2.1).generate_final_state step2.2)).node_map.keyAt ⟨0, 1⟩
      = some 2 := by
  constructor
  · exact keys_preserved.1 (okState step2.1) step2.2 (okState step3.1) step3.2
      (by decide) rfl ⟨0, 1⟩ 2 (by decide)
  · exact keys_preserved.2 (okState step2.1) step2.2
      (finalOf ((okState step2.1).generate_final_state step2.2))
      (finalRngOf step2.2 ((okState step2.1).generate_final_state step2.2))
      (by decide) rfl ⟨0, 1⟩ 2 (by decide)

end ZDG
